import Mathlib

/-!
Verification development for the jarxorg/s3fs repository: an `io/fs.FS`
implementation backed by an S3-style object store, together with its
filesystem-backed mock of the S3 API (`FSS3API`).

The Go sources are embedded shallowly:
  * strings are Lean `String`s compared by a hand-rolled code-point
    comparison `strLt` (Go compares strings byte-wise; on valid UTF-8 the
    byte order coincides with the code-point order used here);
  * `path.Clean`, `path.Join`, `path.Base`, `path.Dir` and `fs.ValidPath`
    from the Go standard library are embedded segment-wise over `List Char`
    (Go's documented segment algorithm: collapse repeated separators, drop
    `.` elements, resolve `..` against a stack, keep leading `..` for
    relative paths and drop it at the root of rooted paths);
  * errors are the recursive type `FErr`: `fs.PathError` becomes `pathE`,
    sentinel errors become atomic constructors;
  * the S3 client is a record of explicit-state functions (`SApi`), and the
    mock (`s3api.go`) is embedded over directory-entry lists and file trees;
  * byte bodies are `List Nat`, times are `Int` (only zero-ness matters).
-/

/-- Go byte-wise string comparison `a < b`, on code points. -/
def charListLt : List Char → List Char → Bool
  | [], [] => false
  | [], _ :: _ => true
  | _ :: _, [] => false
  | a :: as, b :: bs => if a = b then charListLt as bs else decide (a < b)

/-- Go `a < b` on strings. -/
def strLt (a b : String) : Bool := charListLt a.data b.data

/-- Errors of the embedded system. `pathE` is `fs.PathError`; `invalid` is
`fs.ErrInvalid`; `notExist` is `fs.ErrNotExist`; `closed` is `fs.ErrClosed`;
`eisdirE`/`enotdirE` are `syscall.EISDIR`/`syscall.ENOTDIR`; `s3NoSuchKey` is
the AWS `NoSuchKey` error; `ioEOF` is `io.EOF`; `storeOther` stands for any
other transport error. -/
inductive FErr where
  | invalid : FErr
  | notExist : FErr
  | closed : FErr
  | eisdirE : FErr
  | enotdirE : FErr
  | s3NoSuchKey : FErr
  | ioEOF : FErr
  | storeOther : FErr
  | pathE (op : String) (path : String) (err : FErr) : FErr
deriving DecidableEq

/-- `isNotExist` (util.go): true for `fs.ErrNotExist` itself or a
`fs.PathError` whose direct `Err` is `fs.ErrNotExist` (`errors.As` finds the
outermost `PathError` only, and the comparison does not unwrap further). -/
def isNotExist : FErr → Bool
  | .notExist => true
  | .pathE _ _ .notExist => true
  | _ => false

/-- `isS3NoSuchKey` (util.go): `errors.As` unwraps through `PathError`s
looking for an AWS error with code `NoSuchKey`. -/
def isS3NoSuchKey : FErr → Bool
  | .s3NoSuchKey => true
  | .pathE _ _ e => isS3NoSuchKey e
  | _ => false

/-- `toPathError` (util.go): replace an S3 `NoSuchKey` by `fs.ErrNotExist`,
then wrap in a `fs.PathError` carrying the operation and path. -/
def toPathError (e : FErr) (op name : String) : FErr :=
  .pathE op name (if isS3NoSuchKey e then .notExist else e)

/-- Split a character list on `/`. `splitSlash []` is `[[]]`, matching Go's
`strings.Split("", "/") = [""]` convention. -/
def splitSlash : List Char → List (List Char)
  | [] => [[]]
  | c :: cs =>
    if c = '/' then [] :: splitSlash cs
    else
      match splitSlash cs with
      | [] => [[c]]
      | s :: ss => (c :: s) :: ss

/-- Join segments with `/` (inverse of `splitSlash` on slash-free pieces). -/
def joinSegs : List (List Char) → List Char
  | [] => []
  | [s] => s
  | s :: ss => s ++ '/' :: joinSegs ss

/-- One step of Go `path.Clean`'s element processing, on a reversed stack of
output segments: empty and `.` elements are dropped; `..` pops a regular
segment, is dropped at the root of a rooted path, and is kept (stacked) for
relative paths; other segments are pushed. -/
def cleanPush (rooted : Bool) (acc : List (List Char)) (seg : List Char) :
    List (List Char) :=
  if seg = [] ∨ seg = ['.'] then acc
  else if seg = ['.', '.'] then
    match acc with
    | [] => if rooted then [] else [seg]
    | a :: rest => if a = ['.', '.'] then seg :: (a :: rest) else rest
  else seg :: acc

/-- Process all elements of a path through `cleanPush`. -/
def cleanSegs (rooted : Bool) (segs : List (List Char)) : List (List Char) :=
  segs.foldl (cleanPush rooted) []

/-- Go `path.Clean` on a character list. -/
def pathCleanC (cs : List Char) : List Char :=
  match cs with
  | [] => ['.']
  | c :: _ =>
    let rooted := c = '/'
    let body := joinSegs (cleanSegs rooted (splitSlash cs)).reverse
    if rooted then '/' :: body
    else if body = [] then ['.'] else body

/-- Go `path.Clean`. -/
def pathClean (s : String) : String := ⟨pathCleanC s.data⟩

/-- Go `path.Join` restricted to two elements: skip leading empty elements,
join the rest with `/`, and clean. -/
def pathJoin (a b : String) : String :=
  if a ≠ "" then pathClean ⟨a.data ++ '/' :: b.data⟩
  else if b ≠ "" then pathClean b
  else ""

/-- Go `path.Base` on a character list: empty input gives `.`; otherwise drop
trailing slashes, give `/` if nothing remains, else keep the part after the
last slash. -/
def pathBaseC (cs : List Char) : List Char :=
  if cs = [] then ['.']
  else
    let stripped := ((cs.reverse.dropWhile (· = '/'))).reverse
    if stripped = [] then ['/']
    else (stripped.reverse.takeWhile (· ≠ '/')).reverse

/-- Go `path.Base`. -/
def pathBase (s : String) : String := ⟨pathBaseC s.data⟩

/-- Go `path.Dir`: everything up to (and including) the final slash, cleaned.
If there is no slash the result is `.`. -/
def pathDir (s : String) : String :=
  pathClean ⟨(s.data.reverse.dropWhile (· ≠ '/')).reverse⟩

/-- A path element accepted by Go `io/fs.ValidPath`: not empty, not `.`,
not `..`. -/
def validSeg (s : List Char) : Bool :=
  !(decide (s = []) || decide (s = ['.']) || decide (s = ['.', '.']))

/-- Go `io/fs.ValidPath`. Lean strings are always valid unicode, so the
UTF-8 validity test of the Go original is identically true here. -/
def validPath (s : String) : Bool :=
  decide (s = ".") || (splitSlash s.data).all validSeg

/-- Go `strings.HasSuffix(s, "/")`. -/
def endsWithSlash (s : String) : Bool :=
  s.data.getLast? = some '/'

/-- Go `strings.HasSuffix(s, "/.")`. -/
def endsWithSlashDot (s : String) : Bool :=
  match s.data.reverse with
  | '.' :: '/' :: _ => true
  | _ => false

/-- `normalizePrefix` (util.go): clean the path, map `.` and `/` to the empty
key prefix, and otherwise append a trailing `/` when absent. -/
def normalizePrefix (s : String) : String :=
  let p := pathClean s
  let p := if p = "." ∨ p = "/" then "" else p
  if p ≠ "" ∧ ¬ endsWithSlash p then p ++ "/" else p

/-- Go `strings.TrimPrefix`. -/
def trimPrefixS (s pre : String) : String :=
  if s.data.take pre.data.length = pre.data then ⟨s.data.drop pre.data.length⟩
  else s

example : pathClean "/." = "/" := by decide
example : pathClean "" = "." := by decide
example : pathClean "a/../../b" = "../b" := by decide
example : pathClean "a//b/./c" = "a/b/c" := by decide
example : normalizePrefix "." = "" := by decide
example : normalizePrefix "/." = "" := by decide
example : normalizePrefix "dir" = "dir/" := by decide
example : normalizePrefix "dir/" = "dir/" := by decide
example : normalizePrefix "dir/." = "dir/" := by decide
example : validPath "" = false := by decide
example : validPath "." = true := by decide
example : validPath "a/." = false := by decide
example : validPath "a/b.txt" = true := by decide
example : pathBase "a/b.txt" = "b.txt" := by decide
example : pathDir "a/b.txt" = "a" := by decide
example : pathDir "x" = "." := by decide
example : pathJoin "" "a" = "a" := by decide
example : pathJoin "a/" "x" = "a/x" := by decide
example : strLt "a.txt" "a/z" = true := by decide
example : trimPrefixS "bucket/dir0/f.txt" "bucket/" = "dir0/f.txt" := by decide

/-- An S3 object record as returned by `ListObjectsV2` (`s3.Object`). -/
structure S3Obj where
  key : String
  size : Int
  modTime : Int
deriving DecidableEq

/-- `s3.ListObjectsV2Input` (bucket omitted: the model is single-bucket, the
bucket string is threaded separately where the mock needs it). -/
structure ListIn where
  pfx : String
  delim : Option String
  maxKeys : Int
  startAfter : String
deriving DecidableEq

/-- `s3.ListObjectsV2Output`. -/
structure ListOutput where
  commonPrefixes : List String
  contents : List S3Obj
  isTruncated : Bool
deriving DecidableEq

/-- `content` (content.go): the single `fs.DirEntry`/`fs.FileInfo` record. -/
structure Content where
  name : String
  isDir : Bool
  size : Int
  modTime : Int
deriving DecidableEq

/-- `newDirContent` (content.go): synthetic directory entry — only the base
name is set, so size and modification time stay zero. -/
def newDirContent (pfx : String) : Content :=
  { name := pathBase pfx, isDir := true, size := 0, modTime := 0 }

/-- `newFileContent` (content.go). -/
def newFileContent (o : S3Obj) : Content :=
  { name := pathBase o.key, isDir := false, size := o.size, modTime := o.modTime }

/-- `s3.GetObjectOutput` (body materialized as bytes). -/
structure GetOut where
  contentLength : Int
  lastModified : Int
  body : List Nat
deriving DecidableEq

/-- The `s3iface.S3API` surface used by `S3FS`, as explicit-state functions
over a store state `σ`. -/
structure SApi (σ : Type) where
  getObject : σ → String → Except FErr GetOut
  putObject : σ → String → List Nat → Except FErr σ
  listObjectsV2 : σ → ListIn → Except FErr ListOutput

/-- `S3FS` (fs.go): configuration of one adapter instance. -/
structure S3FS where
  dirOpenBufferSize : Int
  listBufferSize : Int
  bucket : String
  dir : String
deriving DecidableEq

/-- `S3FS.key` (fs.go): `path.Clean(path.Join(fsys.dir, name))`. -/
def fsysKey (fsys : S3FS) (name : String) : String :=
  pathClean (pathJoin fsys.dir name)

/-- The listing function obtained from an `SApi` at a fixed store state. -/
def lapiOf {σ : Type} (api : SApi σ) (st : σ) : ListIn → Except FErr ListOutput :=
  fun inp => api.listObjectsV2 st inp

/-- A real-filesystem directory entry as seen by the mock (`fs.DirEntry`
plus its `fs.FileInfo` fields). -/
structure FEntry where
  name : String
  isDir : Bool
  size : Int
  mtime : Int
deriving DecidableEq

/-- `getMaxKeys` (s3api.go): non-positive `MaxKeys` falls back to 1000. -/
def getMaxKeys (n : Int) : Int := if n ≤ 0 then 1000 else n

/-- Loop state of `FSS3API.readDir` (s3api.go). -/
structure RDSt where
  prefixes : List String
  contents : List S3Obj
  limited : Bool
  truncated : Bool
deriving DecidableEq

/-- One iteration of the `FSS3API.readDir` entry loop (s3api.go): directories
always become common prefixes; files are dropped once the limit was reached
(setting `truncated`), dropped when not after `startAfter`, and appended
otherwise. -/
def rdStep (pfx after : String) (limit : Int) (st : RDSt) (e : FEntry) : RDSt :=
  let name := pathJoin pfx e.name
  if e.isDir then { st with prefixes := st.prefixes ++ [name] }
  else if st.limited then { st with truncated := true }
  else if strLt after name = false then st
  else
    let cs := st.contents ++ [⟨name, e.size, e.mtime⟩]
    { st with contents := cs, limited := decide (limit ≤ (cs.length : Int)) }

/-- `FSS3API.readDir` (s3api.go), abstracted over the (name-sorted) entry
list `es` that `fs.ReadDir` returns for the listed directory. -/
def mockReadDir (pfx : String) (es : List FEntry) (maxKeys : Int)
    (after : String) : ListOutput :=
  let st := es.foldl (rdStep pfx after (getMaxKeys maxKeys)) ⟨[], [], false, false⟩
  { commonPrefixes := st.prefixes, contents := st.contents,
    isTruncated := st.truncated }

/-- A delimiter-style `ListObjectsV2` built from `mockReadDir` over a fixed
directory-entry list: the composition of `S3FS`'s directory reader with the
mock store, for one directory. -/
def mockListDelim (es : List FEntry) : ListIn → Except FErr ListOutput :=
  fun inp => .ok (mockReadDir inp.pfx es inp.maxKeys inp.startAfter)

/-- A real file tree backing the mock store. -/
inductive FTree where
  | file (size mtime : Int) : FTree
  | dir (children : List (String × FTree)) : FTree

/-- Loop state of `FSS3API.walkDir` (s3api.go). -/
structure WSt where
  contents : List S3Obj
  limited : Bool
  truncated : Bool
deriving DecidableEq

/-- The `FSS3API.walkDir` callback on a file at path `p` (s3api.go). The
boolean result is true when the callback returns `fs.SkipDir`, which skips
the remaining entries of the containing directory. -/
def wStep (bucket after : String) (limit : Int) (p : String) (sz mt : Int)
    (st : WSt) : WSt × Bool :=
  if st.limited then ({ st with truncated := true }, true)
  else
    let name := trimPrefixS p (bucket ++ "/")
    if strLt after name = false then (st, false)
    else
      let cs := st.contents ++ [⟨name, sz, mt⟩]
      ({ st with contents := cs, limited := decide (limit ≤ (cs.length : Int)) }, false)

/-- `fs.WalkDir` as used by `FSS3API.walkDir` (s3api.go): children are
visited in list order (lexical order for a real filesystem), directories are
skipped by the callback and recursed into, and a `fs.SkipDir` from a file
stops the current directory's remaining entries only. -/
def walkList (bucket after : String) (limit : Int) :
    String → List (String × FTree) → WSt → WSt
  | _, [], st => st
  | p, (nm, FTree.dir gs) :: rest, st =>
    walkList bucket after limit p rest
      (walkList bucket after limit (p ++ "/" ++ nm) gs st)
  | p, (nm, FTree.file sz mt) :: rest, st =>
    let pr := wStep bucket after limit (p ++ "/" ++ nm) sz mt st
    if pr.2 then pr.1 else walkList bucket after limit p rest pr.1
termination_by _ cs _ => sizeOf cs

/-- `FSS3API.walkDir` (s3api.go) on a tree whose root directory (at
`path.Join(bucket, pfx)`) has children `cs`. -/
def mockWalkDir (bucket pfx after : String) (maxKeys : Int)
    (cs : List (String × FTree)) : ListOutput :=
  let st := walkList bucket after (getMaxKeys maxKeys) (pathJoin bucket pfx) cs
    ⟨[], false, false⟩
  { commonPrefixes := [], contents := st.contents, isTruncated := st.truncated }

/-- Mutable state of `s3Dir` (dir.go): listing cursor, end flag and cache. -/
structure DirSt where
  after : String
  eof : Bool
  cache : List Content
deriving DecidableEq

/-- The state of a freshly created `s3Dir` (`newS3Dir`). -/
def dirSt0 : DirSt := { after := "", eof := false, cache := [] }

/-- The fetch part of `s3Dir.list` (dir.go): one `ListObjectsV2` call with a
`/` delimiter; common prefixes become directory entries, objects file
entries; `after` is left at the last key observed by the two loops and `eof`
is set when the result is not truncated. -/
def dirFetch (lapi : ListIn → Except FErr ListOutput) (dpfx : String)
    (n : Int) (st : DirSt) : Except FErr (List Content × DirSt) :=
  match lapi ⟨dpfx, some "/", n, st.after⟩ with
  | .error e => .error e
  | .ok out =>
    let dirs := out.commonPrefixes.map newDirContent
    let a1 := out.commonPrefixes.getLast?.getD st.after
    let files := out.contents.map newFileContent
    let a2 := ((out.contents.map S3Obj.key).getLast?).getD a1
    .ok (dirs ++ files, { after := a2, eof := !out.isTruncated, cache := st.cache })

/-- `s3Dir.list` (dir.go): serve from the cache first; return early when the
request is satisfied or the directory is exhausted; otherwise fetch the
remainder. An exhausted reader with an empty cache yields `io.EOF`. -/
def dirList (lapi : ListIn → Except FErr ListOutput) (dpfx : String)
    (n : Int) (st : DirSt) : Except FErr (List Content × DirSt) :=
  let cc : Int := st.cache.length
  if 0 < cc then
    let served := if cc ≤ n then st.cache else st.cache.take n.toNat
    let cache1 := if cc ≤ n then [] else st.cache.drop n.toNat
    let n1 := n - cc
    let st1 : DirSt := { st with cache := cache1 }
    if st.eof ∨ n1 ≤ 0 then .ok (served, st1)
    else
      match dirFetch lapi dpfx n1 st1 with
      | .error e => .error e
      | .ok (fetched, st2) => .ok (served ++ fetched, st2)
  else if st.eof then .error .ioEOF
  else dirFetch lapi dpfx n st

/-- Sort entries by name (`sort.Slice` in `s3Dir.listAll`; `sort.Slice` is
unstable, and only facts invariant under permutation are proved about the
result). -/
def sortByName (es : List Content) : List Content :=
  es.mergeSort (fun a b => !(strLt b.name a.name))

/-- The loop of `s3Dir.listAll` (dir.go), with fuel standing for the
unbounded Go loop: while the cache is non-empty or the reader is not at its
end, call `list(ListBufferSize)` tolerating `io.EOF`, and concatenate. -/
def listAllAux (lapi : ListIn → Except FErr ListOutput) (dpfx : String)
    (bufSize : Int) : Nat → DirSt → Option (Except FErr (List Content))
  | 0, _ => none
  | fuel + 1, st =>
    if 0 < st.cache.length ∨ st.eof = false then
      match dirList lapi dpfx bufSize st with
      | .error .ioEOF => listAllAux lapi dpfx bufSize fuel st
      | .error e => some (.error e)
      | .ok (es, st') =>
        (listAllAux lapi dpfx bufSize fuel st').map (fun r => r.map (es ++ ·))
    else some (.ok [])

/-- `s3Dir.listAll` (dir.go) from a fresh reader: loop, then sort by name. -/
def listAllRun (lapi : ListIn → Except FErr ListOutput) (dpfx : String)
    (bufSize : Int) (fuel : Nat) : Option (Except FErr (List Content)) :=
  (listAllAux lapi dpfx bufSize fuel dirSt0).map (fun r => r.map sortByName)

/-- Repeated `s3Dir.ReadDir(k)` batch calls (each is `s3Dir.list k`) on one
reader until it reports `io.EOF`, concatenated. -/
def readBatches (lapi : ListIn → Except FErr ListOutput) (dpfx : String)
    (k : Int) : Nat → DirSt → Option (Except FErr (List Content))
  | 0, _ => none
  | fuel + 1, st =>
    match dirList lapi dpfx k st with
    | .error .ioEOF => some (.ok [])
    | .error e => some (.error e)
    | .ok (es, st') =>
      (readBatches lapi dpfx k fuel st').map (fun r => r.map (es ++ ·))

/-- An opened `s3Dir` handle: its key prefix and reader state. -/
structure S3DirHandle where
  pfx : String
  st : DirSt
deriving DecidableEq

/-- `s3Dir.open` (dir.go): one `list(n)` call on a fresh reader; an empty
result is mapped to `fs.ErrNotExist` at this call site, otherwise the
entries become the reader's cache. -/
def dirOpenRaw (lapi : ListIn → Except FErr ListOutput) (dpfx : String)
    (n : Int) : Except FErr S3DirHandle :=
  match dirList lapi dpfx n dirSt0 with
  | .error e => .error e
  | .ok (entries, st') =>
    if entries = [] then .error (.pathE "Open" dpfx .notExist)
    else .ok ⟨dpfx, { st' with cache := entries }⟩

/-- `s3Dir.Read` (dir.go): always 0 bytes and an `EISDIR` path error; the
handle is untouched. The byte buffer argument is ignored like in Go. -/
def s3DirRead (d : S3DirHandle) (_buf : List Nat) : (Nat × FErr) × S3DirHandle :=
  ((0, .pathE "Read" d.pfx .eisdirE), d)

/-- An opened `s3File` (file.go): metadata and the body stream, materialized. -/
structure S3File where
  info : Content
  body : List Nat
deriving DecidableEq

/-- `s3WriterFile` (file.go): buffered write handle. `fsys` is the Go
`fsys *S3FS` pointer field, `none` when nil; `buf = none` is Go's
`f.buf == nil` after a completed close. -/
structure WFile where
  fsys : Option S3FS
  key : String
  buf : Option (List Nat)
  wrote : Bool
deriving DecidableEq

/-- `newS3WriterFile` (file.go:63-71). The Go constructor takes `fsys`
but never assigns the struct's `fsys` field, so the handle's pointer is
left nil (`none`). -/
def newS3WriterFile (_fsys : S3FS) (key : String) : WFile :=
  { fsys := none, key := key, buf := some [], wrote := false }

/-- `s3WriterFile.Write` (file.go): fails `fs.ErrClosed` on a nil buffer,
otherwise appends and marks the handle written. -/
def wfWrite (f : WFile) (p : List Nat) : Except FErr Nat × WFile :=
  match f.buf with
  | none => (.error (toPathError .closed "Write" f.key), f)
  | some b => (.ok p.length, { f with buf := some (b ++ p), wrote := true })

/-- `s3WriterFile.Close` (file.go): a never-written handle closes as a no-op
without any `PutObject`; a closed buffer fails `fs.ErrClosed`; otherwise Go
reads `f.fsys.bucket` (file.go:91) before clearing the buffer — `f.fsys` is
nil on every constructed handle, so this dereference panics, modeled as
`none`; with a non-nil `fsys` the buffer is cleared and uploaded with one
`PutObject` call whose raw error, if any, is returned. The `api` argument
interprets the `f.fsys.api` client and is consulted only on the non-nil
path. -/
def wfClose {σ : Type} (api : SApi σ) (st : σ) (f : WFile) :
    Option (Except FErr Unit × σ × WFile) :=
  if f.wrote = false then some (.ok (), st, f)
  else
    match f.buf with
    | none => some (.error (toPathError .closed "Close" f.key), st, f)
    | some b =>
      match f.fsys with
      | none => none
      | some fsys =>
        match api.putObject st (fsysKey fsys f.key) b with
        | .ok st' => some (.ok (), st', { f with buf := none })
        | .error e => some (.error e, st, { f with buf := none })

/-- `S3FS.openFile` (fs.go): validity check, rejection of `.`-style names,
then one `GetObject`; `newS3File` keeps the base name and the returned
length/time/body. -/
def s3fsOpenFile {σ : Type} (api : SApi σ) (st : σ) (fsys : S3FS)
    (name : String) : Except FErr S3File :=
  if ¬ validPath name then .error (toPathError .invalid "Open" name)
  else if name = "." ∨ endsWithSlashDot name then
    .error (toPathError .notExist "Open" name)
  else
    match api.getObject st (fsysKey fsys name) with
    | .error e => .error (toPathError e "Open" name)
    | .ok o => .ok ⟨⟨pathBase name, false, o.contentLength, o.lastModified⟩, o.body⟩

/-- Result of `S3FS.Open`: a file stream or a directory handle. -/
inductive OpenRes where
  | fileR (f : S3File) : OpenRes
  | dirR (d : S3DirHandle) : OpenRes
deriving DecidableEq

/-- `S3FS.Open` (fs.go): try the object; on a not-exist failure fall back to
the directory probe `newS3Dir(fsys, name).open(DirOpenBufferSize)`. -/
def s3fsOpen {σ : Type} (api : SApi σ) (st : σ) (fsys : S3FS) (name : String) :
    Except FErr OpenRes :=
  match s3fsOpenFile api st fsys name with
  | .ok f => .ok (.fileR f)
  | .error e =>
    if isNotExist e then
      (dirOpenRaw (lapiOf api st) (normalizePrefix (fsysKey fsys name))
        fsys.dirOpenBufferSize).map OpenRes.dirR
    else .error e

/-- `S3FS.Stat` (fs.go): like `Open` with a 1-entry directory probe; the
directory handle's `FileInfo` is its `newDirContent`. -/
def s3fsStat {σ : Type} (api : SApi σ) (st : σ) (fsys : S3FS) (name : String) :
    Except FErr Content :=
  match s3fsOpenFile api st fsys name with
  | .ok f => .ok f.info
  | .error e =>
    if isNotExist e then
      (dirOpenRaw (lapiOf api st) (normalizePrefix (fsysKey fsys name)) 1).map
        (fun d => newDirContent d.pfx)
    else .error e

/-- `S3FS.ReadFile` (fs.go): `openFile`, then `io.ReadAll` of the body. -/
def s3fsReadFile {σ : Type} (api : SApi σ) (st : σ) (fsys : S3FS)
    (name : String) : Except FErr (List Nat) :=
  match s3fsOpenFile api st fsys name with
  | .error e => .error e
  | .ok f => .ok f.body

/-- `S3FS.ReadDir` (fs.go): validity check, then `newS3Dir(fsys, dir)` and a
full `ReadDir(-1)` (that is, `listAll`). -/
def s3fsReadDir {σ : Type} (api : SApi σ) (st : σ) (fsys : S3FS) (dir : String)
    (fuel : Nat) : Option (Except FErr (List Content)) :=
  if ¬ validPath dir then some (.error (toPathError .invalid "ReadDir" dir))
  else
    listAllRun (lapiOf api st) (normalizePrefix (fsysKey fsys dir))
      fsys.listBufferSize fuel

/-- The shortcut branch of `S3FS.Glob` (fs.go) taken for the patterns `""`
and `"*"`: `fsys.ReadDir("")`, then collect the entry names. -/
def s3fsGlobStar {σ : Type} (api : SApi σ) (st : σ) (fsys : S3FS) (fuel : Nat) :
    Option (Except FErr (List String)) :=
  (s3fsReadDir api st fsys "" fuel).map
    (fun r => r.map (fun es => es.map Content.name))

/-- `S3FS.CreateFile` (fs.go): reject invalid names; if the object probe
fails with anything but not-exist, fail; if it fails with not-exist and the
1-entry directory probe succeeds, fail `EISDIR`; if the parent opens as an
object, fail `ENOTDIR`; otherwise hand out a fresh write handle. -/
def s3fsCreateFile {σ : Type} (api : SApi σ) (st : σ) (fsys : S3FS)
    (name : String) : Except FErr WFile :=
  if ¬ validPath name then .error (toPathError .invalid "CreateFile" name)
  else
    let step2 : Except FErr WFile :=
      let d := pathDir name
      match s3fsOpenFile api st fsys d with
      | .ok _ => .error (toPathError .enotdirE "CreateFile" d)
      | .error _ => .ok (newS3WriterFile fsys name)
    match s3fsOpenFile api st fsys name with
    | .ok _ => step2
    | .error e =>
      if isNotExist e = false then .error (toPathError e "CreateFile" name)
      else
        match dirOpenRaw (lapiOf api st) (normalizePrefix (fsysKey fsys name)) 1 with
        | .ok _ => .error (toPathError .eisdirE "CreateFile" name)
        | .error _ => step2

/-- `S3FS.WriteFile` (fs.go): `CreateFile`, one `Write`, then `Close`. The
result mirrors Go's `(int, error)` pair with the store state alongside;
`none` is a nil-pointer panic propagated from `Close`. -/
def s3fsWriteFile {σ : Type} (api : SApi σ) (st : σ) (fsys : S3FS)
    (name : String) (p : List Nat) : Option ((Nat × Option FErr) × σ) :=
  match s3fsCreateFile api st fsys name with
  | .error e => some ((0, some e), st)
  | .ok w =>
    match wfWrite w p with
    | (.error e, _) => some ((0, some (toPathError e "Write" name)), st)
    | (.ok n, w') =>
      match wfClose api st w' with
      | none => none
      | some (.ok _, st', _) => some ((n, none), st')
      | some (.error e, st', _) => some ((n, some e), st')

example : (mockReadDir "dir0/" [⟨"a", true, 0, 0⟩, ⟨"b.txt", false, 3, 7⟩] 10 "")
    = ⟨["dir0/a"], [⟨"dir0/b.txt", 3, 7⟩], false⟩ := by decide
example : (mockReadDir "" [⟨"b", true, 0, 0⟩, ⟨"c.txt", false, 1, 0⟩] 1 "")
    = ⟨["b"], [⟨"c.txt", 1, 0⟩], false⟩ := by decide
example :
    (mockWalkDir "b" "" "" 1000
      [("a", FTree.dir [("z", FTree.file 1 0)]), ("a.txt", FTree.file 2 0)]).contents
    = [⟨"a/z", 1, 0⟩, ⟨"a.txt", 2, 0⟩] := by
  simp only [mockWalkDir, walkList, wStep]
  decide

/-- Iterated `s3Dir.Read` calls on one handle, collecting the results. -/
def s3DirReadN (d : S3DirHandle) (buf : List Nat) :
    Nat → List (Nat × FErr) × S3DirHandle
  | 0 => ([], d)
  | n + 1 =>
    let r := s3DirRead d buf
    let rest := s3DirReadN r.2 buf n
    (r.1 :: rest.1, rest.2)

/-- The directory-entry zero-metadata invariant of the spec. -/
def DirInv (e : Content) : Prop := e.isDir = true → e.size = 0 ∧ e.modTime = 0

/-- Go `a < b` on strings, as a proposition. -/
abbrev SLt (a b : String) : Prop := strLt a b = true

/-- The full key under which the mock lists a directory entry
(`path.Join(input.Prefix, entry.Name())` in s3api.go). -/
def entryKey (pfx : String) (e : FEntry) : String := pathJoin pfx e.name

/-- Keys of the directory entries of a listed directory, in order. -/
def dirKeys (pfx : String) (es : List FEntry) : List String :=
  (es.filter (fun e => e.isDir)).map (entryKey pfx)

/-- The S3 object the mock lists for a file entry. -/
def objOfEntry (pfx : String) (e : FEntry) : S3Obj :=
  { key := entryKey pfx e, size := e.size, modTime := e.mtime }

/-- The file entries of a listed directory as S3 objects, in order. -/
def fileObjs (pfx : String) (es : List FEntry) : List S3Obj :=
  (es.filter (fun e => ¬ e.isDir)).map (objOfEntry pfx)

/-- Objects with keys strictly after a cursor. -/
def objsAfter (a : String) (objs : List S3Obj) : List S3Obj :=
  objs.filter (fun o => strLt a o.key)

/-- A store state holding nothing: every get fails `NoSuchKey`, every listing
is empty, puts are accepted and dropped. -/
def apiNone : SApi Unit where
  getObject := fun _ _ => .error .s3NoSuchKey
  putObject := fun _ _ _ => .ok ()
  listObjectsV2 := fun _ _ => .ok ⟨[], [], false⟩

/-- A flat key-to-body store used to witness the put/get contract. -/
def MapStore : Type := List (String × List Nat)

/-- Key lookup in a `MapStore`. -/
def mapLookup (m : MapStore) (k : String) : Option (List Nat) :=
  (m.find? (fun kv => kv.1 = k)).map (fun kv => kv.2)

/-- An `SApi` over `MapStore`: get returns the stored body with its length,
put prepends, listings are empty. -/
def apiMap : SApi MapStore where
  getObject := fun m k =>
    match mapLookup m k with
    | some v => .ok ⟨(v.length : Int), 0, v⟩
    | none => .error .s3NoSuchKey
  putObject := fun m k b => .ok ((k, b) :: m)
  listObjectsV2 := fun _ _ => .ok ⟨[], [], false⟩

/-- A concrete adapter configuration with the library defaults. -/
def fsys0 : S3FS :=
  { dirOpenBufferSize := 100, listBufferSize := 1000,
    bucket := "testdata", dir := "" }

/-- A regular cleaned-path segment: non-empty, not `.`, slash-free. -/
def SegOK (s : List Char) : Prop := s ≠ [] ∧ s ≠ ['.'] ∧ '/' ∉ s

/-- Invariant of `path.Clean`'s output stack (in reversed order): regular
segments on top of a run of `..` segments, the latter only for relative
paths. -/
def OKStack (rooted : Bool) (acc : List (List Char)) : Prop :=
  ∃ ns d, acc = ns ++ List.replicate d ['.', '.']
    ∧ (∀ s ∈ ns, SegOK s ∧ s ≠ ['.', '.'])
    ∧ (rooted = true → d = 0)

theorem splitSlash_ne_nil (cs : List Char) : splitSlash cs ≠ [] := by
  induction cs with
  | nil => simp [splitSlash]
  | cons c cs ih =>
    unfold splitSlash
    by_cases h : c = '/'
    · simp [h]
    · simp only [h, if_false]
      cases hs : splitSlash cs with
      | nil => simp
      | cons s ss => simp

theorem splitSlash_cons (c : Char) (cs : List Char) :
    splitSlash (c :: cs) = if c = '/' then [] :: splitSlash cs
      else match splitSlash cs with
        | [] => [[c]]
        | s :: ss => (c :: s) :: ss := rfl

theorem splitSlash_append_slash (xs ys : List Char) :
    splitSlash (xs ++ '/' :: ys) = splitSlash xs ++ splitSlash ys := by
  induction xs with
  | nil => rw [List.nil_append, splitSlash_cons]; simp [splitSlash]
  | cons c cs ih =>
    rw [List.cons_append, splitSlash_cons, splitSlash_cons, ih]
    by_cases h : c = '/'
    · simp [h]
    · simp only [h, if_false]
      cases hs : splitSlash cs with
      | nil => exact absurd hs (splitSlash_ne_nil cs)
      | cons s ss => simp

theorem endsWithSlashDot_invalid (s : String) (h : endsWithSlashDot s = true) :
    validPath s = false := by
  unfold endsWithSlashDot at h
  split at h
  case h_2 => exact absurd h (by simp)
  case h_1 r heq =>
    have hdata : s.data = r.reverse ++ '/' :: ['.'] := by
      have := congrArg List.reverse heq
      simpa using this
    have hne : ¬ s = "." := by
      intro hs
      rw [hs] at hdata
      have := congrArg List.length hdata
      simp at this
    unfold validPath
    rw [hdata, splitSlash_append_slash]
    simp [hne, validSeg, splitSlash]

/-- C10: `s3Dir.Read` always returns 0 bytes with an `EISDIR` path error and
leaves the handle unchanged, so any number of repeated reads on a directory
handle (in particular one returned by `Open`) all yield the same 0-byte
`EISDIR` failure, regardless of the directory's contents. -/
theorem C10_dir_read (d : S3DirHandle) (buf : List Nat) (n : Nat) :
    s3DirRead d buf = ((0, FErr.pathE "Read" d.pfx FErr.eisdirE), d)
    ∧ s3DirReadN d buf n
      = (List.replicate n (0, FErr.pathE "Read" d.pfx FErr.eisdirE), d) := by
  refine ⟨rfl, ?_⟩
  induction n with
  | zero => rfl
  | succ n ih =>
    show ((0, FErr.pathE "Read" d.pfx FErr.eisdirE) :: (s3DirReadN d buf n).1,
      (s3DirReadN d buf n).2)
      = (List.replicate (n + 1) (0, FErr.pathE "Read" d.pfx FErr.eisdirE), d)
    rw [ih, List.replicate_succ]

/-- C3: evaluation at the failing input — the `""`/`"*"` shortcut branch of
`S3FS.Glob` calls `fsys.ReadDir("")`, and `fs.ValidPath("")` is false, so for
every store and every state `Glob("*")` returns a `ReadDir ""` invalid-path
error instead of the root's children. -/
theorem C3_glob_star_invalid {σ : Type} (api : SApi σ) (st : σ) (fsys : S3FS)
    (fuel : Nat) :
    s3fsGlobStar api st fsys fuel
      = some (.error (FErr.pathE "ReadDir" "" FErr.invalid))
    ∧ validPath "" = false := by
  constructor
  · rfl
  · decide

/-- C6 counterexample: on a handle that was never written, `Close` succeeds
as a no-op and does not invalidate the buffer, so a `Write` (and another
`Close`) after that `Close` still succeeds — the claim's "any subsequent
Write or Close fails with AlreadyClosed" is false for such handles. -/
theorem C6_counterexample :
    ∃ f', wfClose apiNone () (newS3WriterFile fsys0 "k") = some (.ok (), (), f')
      ∧ (wfWrite f' [1]).1 = .ok 1
      ∧ wfClose apiNone () f' = some (.ok (), (), f') :=
  ⟨newS3WriterFile fsys0 "k", rfl, rfl, rfl⟩

/-- C6 (amended): a `Close` of a never-written handle succeeds as a no-op
without issuing an upload and without changing the store state or the
handle, so a subsequent `Write` still succeeds; `Write`, and `Close` of a
written handle, fail `AlreadyClosed` (`fs.ErrClosed`) once the buffer is
nil; but a `Close` of a written handle with a live buffer never reports
`AlreadyClosed` afterwards — it nil-panics at `f.fsys.bucket` (file.go:91)
before clearing the buffer, because `newS3WriterFile` drops its `fsys`
argument (file.go:63-71). -/
theorem C6_amended {σ σ' : Type} (api : SApi σ) (st : σ) (api' : SApi σ')
    (st' : σ') (f g h : WFile) (b0 b p : List Nat)
    (hg : g.wrote = false) (hgb : g.buf = some b0)
    (hf : f.buf = none) (hfw : f.wrote = true)
    (hh : h.wrote = true) (hhb : h.buf = some b) (hhf : h.fsys = none) :
    wfClose api' st' g = some (.ok (), st', g)
    ∧ (wfWrite g p).1 = .ok p.length
    ∧ (wfWrite f p).1 = .error (toPathError .closed "Write" f.key)
    ∧ wfClose api st f = some (.error (toPathError .closed "Close" f.key), st, f)
    ∧ wfClose api st h = none := by
  refine ⟨?_, ?_, ?_, ?_, ?_⟩
  · unfold wfClose
    rw [hg]
    rfl
  · unfold wfWrite
    rw [hgb]
  · unfold wfWrite
    rw [hf]
  · unfold wfClose
    rw [hfw, hf]
    rfl
  · unfold wfClose
    rw [hh, hhb, hhf]
    rfl

theorem C6_amended_wit :
    wfClose apiNone () (newS3WriterFile fsys0 "g")
      = some (.ok (), (), newS3WriterFile fsys0 "g")
    ∧ (wfWrite (newS3WriterFile fsys0 "g") [1]).1 = .ok 1
    ∧ (wfWrite ⟨none, "k", none, true⟩ [1]).1
      = .error (toPathError .closed "Write" "k")
    ∧ wfClose apiNone () ⟨none, "k", none, true⟩
      = some (.error (toPathError .closed "Close" "k"), (), ⟨none, "k", none, true⟩)
    ∧ wfClose apiNone () ⟨none, "k", some [2], true⟩ = none :=
  C6_amended apiNone () apiNone () ⟨none, "k", none, true⟩
    (newS3WriterFile fsys0 "g") ⟨none, "k", some [2], true⟩ [] [2] [1]
    rfl rfl rfl rfl rfl rfl rfl

/-- C9 counterexample: the input `"/."` is neither `"."` nor the empty
string; its cleaned path is `"/"`, which already ends in the separator, so
the claim predicts `normalizePrefix "/." = "/"` — but the function returns
the empty prefix (the repository's own test expects this). -/
theorem C9_counterexample :
    normalizePrefix "/." = "" ∧ pathClean "/." = "/"
    ∧ ("/." : String) ≠ "." ∧ ("/." : String) ≠ ""
    ∧ ("" : String) ≠ "/" := by
  decide

/-- C7 counterexample: `Open` and `Stat` reject the non-root `.`-suffixed
path `"a/."` with `fs.ErrInvalid` (the `fs.ValidPath` test fires before the
`"/."`-suffix branch of `openFile`), not with not-found as claimed. -/
theorem C7_counterexample :
    s3fsOpen apiNone () fsys0 "a/." = .error (FErr.pathE "Open" "a/." FErr.invalid)
    ∧ s3fsStat apiNone () fsys0 "a/." = .error (FErr.pathE "Open" "a/." FErr.invalid)
    ∧ FErr.invalid ≠ FErr.notExist
    ∧ isNotExist (FErr.pathE "Open" "a/." FErr.invalid) = false := by
  exact ⟨rfl, rfl, by decide, rfl⟩

theorem validPath_not_slashdot (s : String) (hv : validPath s = true) :
    endsWithSlashDot s = false := by
  cases h : endsWithSlashDot s with
  | false => rfl
  | true => rw [endsWithSlashDot_invalid s h] at hv; cases hv

theorem s3fsOpenFile_eq_get {σ : Type} (api : SApi σ) (st : σ) (fsys : S3FS)
    (name : String) (hv : validPath name = true) (hr : name ≠ ".") :
    s3fsOpenFile api st fsys name =
      match api.getObject st (fsysKey fsys name) with
      | .error e => .error (toPathError e "Open" name)
      | .ok o =>
        .ok ⟨⟨pathBase name, false, o.contentLength, o.lastModified⟩, o.body⟩ := by
  have hsd := validPath_not_slashdot name hv
  unfold s3fsOpenFile
  simp [hv, hr, hsd]

theorem dirList_probe_empty (lapi : ListIn → Except FErr ListOutput)
    (dpfx : String) (n : Int)
    (hlist : lapi ⟨dpfx, some "/", n, ""⟩ = .ok ⟨[], [], false⟩) :
    dirList lapi dpfx n dirSt0 = .ok ([], ⟨"", true, []⟩) := by
  unfold dirList dirFetch dirSt0
  simp [hlist]

theorem dirOpenRaw_probe_empty (lapi : ListIn → Except FErr ListOutput)
    (dpfx : String) (n : Int)
    (hlist : lapi ⟨dpfx, some "/", n, ""⟩ = .ok ⟨[], [], false⟩) :
    dirOpenRaw lapi dpfx n = .error (.pathE "Open" dpfx .notExist) := by
  unfold dirOpenRaw
  rw [dirList_probe_empty lapi dpfx n hlist]
  simp

/-- C4: on a path with no object (`GetObject` fails `NoSuchKey`) and an empty
directory probe, `Open` and `Stat` fail with a not-found `PathError` raised
at the directory-open call site, while the underlying `s3Dir.list` call
itself returns the empty page successfully (an empty first page is not an
error). -/
theorem C4_not_found {σ : Type} (api : SApi σ) (st : σ) (fsys : S3FS)
    (name : String) (hv : validPath name = true) (hr : name ≠ ".")
    (hget : api.getObject st (fsysKey fsys name) = .error .s3NoSuchKey)
    (hlist : ∀ n a, api.listObjectsV2 st
      ⟨normalizePrefix (fsysKey fsys name), some "/", n, a⟩ = .ok ⟨[], [], false⟩) :
    s3fsOpen api st fsys name
      = .error (.pathE "Open" (normalizePrefix (fsysKey fsys name)) .notExist)
    ∧ s3fsStat api st fsys name
      = .error (.pathE "Open" (normalizePrefix (fsysKey fsys name)) .notExist)
    ∧ dirList (lapiOf api st) (normalizePrefix (fsysKey fsys name))
        fsys.dirOpenBufferSize dirSt0 = .ok ([], ⟨"", true, []⟩) := by
  have hopen : s3fsOpenFile api st fsys name
      = .error (.pathE "Open" name .notExist) := by
    rw [s3fsOpenFile_eq_get api st fsys name hv hr, hget]
    rfl
  have hprobe : ∀ n, dirOpenRaw (lapiOf api st)
      (normalizePrefix (fsysKey fsys name)) n
      = .error (.pathE "Open" (normalizePrefix (fsysKey fsys name)) .notExist) :=
    fun n => dirOpenRaw_probe_empty _ _ n (hlist n "")
  refine ⟨?_, ?_, ?_⟩
  · unfold s3fsOpen
    rw [hopen]
    simp only [isNotExist, hprobe]
    rfl
  · unfold s3fsStat
    rw [hopen]
    simp only [isNotExist, hprobe]
    rfl
  · exact dirList_probe_empty _ _ _ (hlist _ "")

theorem C4_not_found_wit :
    s3fsOpen apiNone () fsys0 "missing"
      = .error (.pathE "Open" (normalizePrefix (fsysKey fsys0 "missing")) .notExist)
    ∧ s3fsStat apiNone () fsys0 "missing"
      = .error (.pathE "Open" (normalizePrefix (fsysKey fsys0 "missing")) .notExist)
    ∧ dirList (lapiOf apiNone ()) (normalizePrefix (fsysKey fsys0 "missing"))
        fsys0.dirOpenBufferSize dirSt0 = .ok ([], ⟨"", true, []⟩) :=
  C4_not_found apiNone () fsys0 "missing" (by decide) (by decide) rfl
    (fun _ _ => rfl)

theorem createFile_ok_shape {σ : Type} (api : SApi σ) (st : σ) (fsys : S3FS)
    (name : String) (w : WFile)
    (hw : s3fsCreateFile api st fsys name = .ok w) :
    w = newS3WriterFile fsys name := by
  unfold s3fsCreateFile at hw
  by_cases hv : validPath name = true
  · rw [if_neg (not_not_intro hv)] at hw
    cases hof : s3fsOpenFile api st fsys name with
    | ok o =>
      simp only [hof] at hw
      cases hpd : s3fsOpenFile api st fsys (pathDir name) with
      | ok o2 => simp [hpd] at hw
      | error e2 =>
        simp only [hpd] at hw
        injection hw with h2
        exact h2.symm
    | error e =>
      simp only [hof] at hw
      by_cases hne : isNotExist e = false
      · rw [if_pos hne] at hw
        exact Except.noConfusion hw
      · rw [if_neg hne] at hw
        cases hdo : dirOpenRaw (lapiOf api st)
            (normalizePrefix (fsysKey fsys name)) 1 with
        | ok d => simp [hdo] at hw
        | error e3 =>
          simp only [hdo] at hw
          cases hpd : s3fsOpenFile api st fsys (pathDir name) with
          | ok o2 => simp [hpd] at hw
          | error e2 =>
            simp only [hpd] at hw
            injection hw with h2
            exact h2.symm
  · rw [if_pos hv] at hw
    exact Except.noConfusion hw

example : s3fsWriteFile apiMap ([] : MapStore) fsys0 "a" [7, 8] = none := rfl

/-- C1: code bug — `newS3WriterFile` (file.go:63-71) never assigns the
`fsys` field it receives, so the handle `CreateFile` returns carries a nil
`fsys` pointer; `Write` marks it written, and the `Close` that `WriteFile`
then performs dereferences the nil pointer at `f.fsys.bucket` (file.go:91)
and panics. Hence for every store, state, path and byte sequence,
`WriteFile` either fails inside `CreateFile` (leaving the store untouched)
or panics — the claimed write/read round trip never completes. -/
theorem C1_write_panics {σ : Type} (api : SApi σ) (st : σ) (fsys : S3FS)
    (name : String) (p : List Nat) :
    (newS3WriterFile fsys name).fsys = none
    ∧ wfClose api st (wfWrite (newS3WriterFile fsys name) p).2 = none
    ∧ ((∃ e, s3fsWriteFile api st fsys name p = some ((0, some e), st))
       ∨ s3fsWriteFile api st fsys name p = none) := by
  refine ⟨rfl, rfl, ?_⟩
  cases hc : s3fsCreateFile api st fsys name with
  | error e =>
    left
    exact ⟨e, by unfold s3fsWriteFile; rw [hc]⟩
  | ok w =>
    right
    have hw := createFile_ok_shape api st fsys name w hc
    unfold s3fsWriteFile
    rw [hc, hw]
    rfl

/-- C7 (amended): non-root paths ending in the segment `.` are rejected by
`Open` and `Stat` with `fs.ErrInvalid` (the `fs.ValidPath` check fires before
`openFile`'s `"/."` branch, which is unreachable), not with not-found; the
sole path `.` is accepted and resolves to the root directory probe. -/
theorem C7_amended {σ : Type} (api : SApi σ) (st : σ) (fsys : S3FS)
    (name : String) (h : endsWithSlashDot name = true) :
    s3fsOpen api st fsys name = .error (FErr.pathE "Open" name FErr.invalid)
    ∧ s3fsStat api st fsys name = .error (FErr.pathE "Open" name FErr.invalid)
    ∧ s3fsOpen api st fsys "."
      = (dirOpenRaw (lapiOf api st) (normalizePrefix (fsysKey fsys "."))
          fsys.dirOpenBufferSize).map OpenRes.dirR := by
  have hv := endsWithSlashDot_invalid name h
  have hof : s3fsOpenFile api st fsys name
      = .error (.pathE "Open" name .invalid) := by
    unfold s3fsOpenFile
    simp [hv, toPathError, isS3NoSuchKey]
  have hdot : s3fsOpenFile api st fsys "."
      = .error (.pathE "Open" "." .notExist) := rfl
  refine ⟨?_, ?_, ?_⟩
  · unfold s3fsOpen
    rw [hof]
    rfl
  · unfold s3fsStat
    rw [hof]
    rfl
  · unfold s3fsOpen
    rw [hdot]
    rfl

theorem C7_amended_wit :
    s3fsOpen apiNone () fsys0 "a/." = .error (FErr.pathE "Open" "a/." FErr.invalid)
    ∧ s3fsStat apiNone () fsys0 "a/." = .error (FErr.pathE "Open" "a/." FErr.invalid)
    ∧ s3fsOpen apiNone () fsys0 "."
      = (dirOpenRaw (lapiOf apiNone ()) (normalizePrefix (fsysKey fsys0 "."))
          fsys0.dirOpenBufferSize).map OpenRes.dirR :=
  C7_amended apiNone () fsys0 "a/." (by decide)

theorem dirFetch_inv (lapi : ListIn → Except FErr ListOutput) (dpfx : String)
    (n : Int) (st : DirSt) (es : List Content) (st' : DirSt)
    (hcache : ∀ e ∈ st.cache, DirInv e)
    (h : dirFetch lapi dpfx n st = .ok (es, st')) :
    (∀ e ∈ es, DirInv e) ∧ (∀ e ∈ st'.cache, DirInv e) := by
  unfold dirFetch at h
  cases hl : lapi ⟨dpfx, some "/", n, st.after⟩ with
  | error e => rw [hl] at h; cases h
  | ok out =>
    rw [hl] at h
    simp only [Except.ok.injEq, Prod.mk.injEq] at h
    obtain ⟨he, hst⟩ := h
    constructor
    · intro e hmem
      rw [← he] at hmem
      rcases List.mem_append.mp hmem with hd | hf
      · obtain ⟨p, _, hp⟩ := List.mem_map.mp hd
        intro _
        rw [← hp]
        exact ⟨rfl, rfl⟩
      · obtain ⟨o, _, ho⟩ := List.mem_map.mp hf
        intro hdir
        rw [← ho] at hdir
        cases hdir
    · intro e hmem
      rw [← hst] at hmem
      exact hcache e hmem

theorem dirList_cache_ret (lapi : ListIn → Except FErr ListOutput)
    (dpfx : String) (n : Int) (st : DirSt)
    (h1 : 0 < (st.cache.length : Int))
    (h2 : st.eof = true ∨ n - (st.cache.length : Int) ≤ 0) :
    dirList lapi dpfx n st
      = .ok ((if (st.cache.length : Int) ≤ n then st.cache else st.cache.take n.toNat),
          { st with cache :=
              if (st.cache.length : Int) ≤ n then [] else st.cache.drop n.toNat }) := by
  simp only [dirList]
  rw [if_pos h1, if_pos h2]

theorem dirList_cache_fetch (lapi : ListIn → Except FErr ListOutput)
    (dpfx : String) (n : Int) (st : DirSt)
    (h1 : 0 < (st.cache.length : Int))
    (h2 : ¬ (st.eof = true ∨ n - (st.cache.length : Int) ≤ 0)) :
    dirList lapi dpfx n st
      = match dirFetch lapi dpfx (n - (st.cache.length : Int))
          { st with cache :=
              if (st.cache.length : Int) ≤ n then [] else st.cache.drop n.toNat } with
        | .error e => .error e
        | .ok (fetched, st2) =>
          .ok ((if (st.cache.length : Int) ≤ n then st.cache
            else st.cache.take n.toNat) ++ fetched, st2) := by
  simp only [dirList]
  rw [if_pos h1, if_neg h2]

theorem dirList_eof (lapi : ListIn → Except FErr ListOutput) (dpfx : String)
    (n : Int) (st : DirSt) (h1 : ¬ 0 < (st.cache.length : Int))
    (h2 : st.eof = true) :
    dirList lapi dpfx n st = .error .ioEOF := by
  simp only [dirList]
  rw [if_neg h1, if_pos h2]

theorem dirList_fetch (lapi : ListIn → Except FErr ListOutput) (dpfx : String)
    (n : Int) (st : DirSt) (h1 : ¬ 0 < (st.cache.length : Int))
    (h2 : ¬ st.eof = true) :
    dirList lapi dpfx n st = dirFetch lapi dpfx n st := by
  simp only [dirList]
  rw [if_neg h1, if_neg h2]

/-- C8: directory entries are synthetic — `newDirContent` always carries
size 0 and zero time, `newFileContent` is never a directory, and every
`s3Dir.list` call preserves the invariant that all produced entries and all
cached entries with the directory flag have zero size and zero time. -/
theorem C8_dir_zero (lapi : ListIn → Except FErr ListOutput) (dpfx : String)
    (n : Int) (st : DirSt) (es : List Content) (st' : DirSt)
    (hcache : ∀ e ∈ st.cache, DirInv e)
    (h : dirList lapi dpfx n st = .ok (es, st')) :
    (∀ p, (newDirContent p).isDir = true ∧ (newDirContent p).size = 0
      ∧ (newDirContent p).modTime = 0)
    ∧ (∀ o, (newFileContent o).isDir = false)
    ∧ (∀ e ∈ es, DirInv e) ∧ (∀ e ∈ st'.cache, DirInv e) := by
  refine ⟨fun p => ⟨rfl, rfl, rfl⟩, fun o => rfl, ?_⟩
  by_cases h1 : 0 < (st.cache.length : Int)
  · by_cases h2 : st.eof = true ∨ n - (st.cache.length : Int) ≤ 0
    · rw [dirList_cache_ret lapi dpfx n st h1 h2] at h
      simp only [Except.ok.injEq, Prod.mk.injEq] at h
      obtain ⟨he, hst⟩ := h
      constructor
      · intro e hmem
        rw [← he] at hmem
        by_cases h3 : (st.cache.length : Int) ≤ n
        · rw [if_pos h3] at hmem; exact hcache e hmem
        · rw [if_neg h3] at hmem; exact hcache e (List.mem_of_mem_take hmem)
      · intro e hmem
        rw [← hst] at hmem
        simp only at hmem
        by_cases h3 : (st.cache.length : Int) ≤ n
        · rw [if_pos h3] at hmem; cases hmem
        · rw [if_neg h3] at hmem; exact hcache e (List.mem_of_mem_drop hmem)
    · rw [dirList_cache_fetch lapi dpfx n st h1 h2] at h
      cases hf : dirFetch lapi dpfx (n - (st.cache.length : Int))
          { st with cache :=
              if (st.cache.length : Int) ≤ n then [] else st.cache.drop n.toNat } with
      | error e => rw [hf] at h; cases h
      | ok r =>
        rw [hf] at h
        obtain ⟨fetched, st2⟩ := r
        simp only [Except.ok.injEq, Prod.mk.injEq] at h
        obtain ⟨he, hst⟩ := h
        have hcache1 : ∀ e ∈ (if (st.cache.length : Int) ≤ n then ([] : List Content)
            else st.cache.drop n.toNat), DirInv e := by
          intro e hmem
          by_cases h3 : (st.cache.length : Int) ≤ n
          · rw [if_pos h3] at hmem; cases hmem
          · rw [if_neg h3] at hmem; exact hcache e (List.mem_of_mem_drop hmem)
        have hinv := dirFetch_inv lapi dpfx (n - (st.cache.length : Int))
          { st with cache :=
              if (st.cache.length : Int) ≤ n then [] else st.cache.drop n.toNat }
          fetched st2 hcache1 hf
        constructor
        · intro e hmem
          rw [← he] at hmem
          rcases List.mem_append.mp hmem with hs | hfe
          · by_cases h3 : (st.cache.length : Int) ≤ n
            · rw [if_pos h3] at hs; exact hcache e hs
            · rw [if_neg h3] at hs; exact hcache e (List.mem_of_mem_take hs)
          · exact hinv.1 e hfe
        · intro e hmem
          rw [← hst] at hmem
          exact hinv.2 e hmem
  · by_cases h2 : st.eof = true
    · rw [dirList_eof lapi dpfx n st h1 h2] at h; cases h
    · rw [dirList_fetch lapi dpfx n st h1 h2] at h
      exact dirFetch_inv lapi dpfx n st es st' hcache h

theorem C8_dir_zero_wit :
    (∀ p, (newDirContent p).isDir = true ∧ (newDirContent p).size = 0
      ∧ (newDirContent p).modTime = 0)
    ∧ (∀ o, (newFileContent o).isDir = false)
    ∧ (∀ e ∈ [newDirContent "p/d"], DirInv e)
    ∧ (∀ e ∈ (⟨"p/d", true, []⟩ : DirSt).cache, DirInv e) :=
  C8_dir_zero (mockListDelim [⟨"d", true, 0, 0⟩]) "p/" 5 dirSt0
    [newDirContent "p/d"] ⟨"p/d", true, []⟩
    (fun e he => absurd he (List.not_mem_nil e)) rfl

theorem charListLt_trans : ∀ a b c : List Char, charListLt a b = true →
    charListLt b c = true → charListLt a c = true
  | [], [], _, h1, _ => by simp [charListLt] at h1
  | [], _ :: _, [], _, h2 => by simp [charListLt] at h2
  | [], _ :: _, _ :: _, _, _ => by simp [charListLt]
  | _ :: _, [], _, h1, _ => by simp [charListLt] at h1
  | _ :: _, _ :: _, [], _, h2 => by simp [charListLt] at h2
  | x :: xs, y :: ys, z :: zs, h1, h2 => by
    simp only [charListLt] at h1 h2 ⊢
    by_cases hxy : x = y
    · subst hxy
      rw [if_pos rfl] at h1
      by_cases hxz : x = z
      · subst hxz
        rw [if_pos rfl] at h2 ⊢
        exact charListLt_trans xs ys zs h1 h2
      · rw [if_neg hxz] at h2 ⊢
        exact h2
    · rw [if_neg hxy] at h1
      have hxy' : x < y := of_decide_eq_true h1
      by_cases hyz : y = z
      · subst hyz
        rw [if_neg hxy]
        exact h1
      · rw [if_neg hyz] at h2
        have hyz' : y < z := of_decide_eq_true h2
        have hxz' : x < z := lt_trans hxy' hyz'
        rw [if_neg (ne_of_lt hxz')]
        exact decide_eq_true hxz'

theorem strLt_trans (a b c : String) (h1 : strLt a b = true)
    (h2 : strLt b c = true) : strLt a c = true :=
  charListLt_trans a.data b.data c.data h1 h2

/-- C5 counterexample: the mock's delimiter listing returns a common prefix
that is not greater than `startAfterKey` (`"b"` with `startAfterKey "z"`),
and the mock's recursive (no-delimiter) walk returns keys in DFS order which
is not strictly increasing lexicographically (`"a/z"` before `"a.txt"`). -/
theorem C5_counterexample :
    (mockReadDir "" [⟨"b", true, 0, 0⟩] 1000 "z").commonPrefixes = ["b"]
    ∧ strLt "z" "b" = false
    ∧ ((mockWalkDir "b" "" "" 1000
        [("a", FTree.dir [("z", FTree.file 1 0)]),
         ("a.txt", FTree.file 2 0)]).contents.map S3Obj.key)
      = ["a/z", "a.txt"]
    ∧ strLt "a/z" "a.txt" = false := by
  refine ⟨by decide, by decide, ?_, by decide⟩
  simp only [mockWalkDir, walkList, wStep]
  decide

theorem rdStep_dir (pfx after : String) (limit : Int) (st : RDSt) (e : FEntry)
    (h : e.isDir = true) :
    rdStep pfx after limit st e
      = { st with prefixes := st.prefixes ++ [pathJoin pfx e.name] } := by
  simp [rdStep, h]

theorem rdStep_file_limited (pfx after : String) (limit : Int) (st : RDSt)
    (e : FEntry) (h : e.isDir = false) (hl : st.limited = true) :
    rdStep pfx after limit st e = { st with truncated := true } := by
  simp [rdStep, h, hl]

theorem rdStep_file_skip (pfx after : String) (limit : Int) (st : RDSt)
    (e : FEntry) (h : e.isDir = false) (hl : st.limited = false)
    (hk : strLt after (pathJoin pfx e.name) = false) :
    rdStep pfx after limit st e = st := by
  simp [rdStep, h, hl, hk]

theorem rdStep_file_app (pfx after : String) (limit : Int) (st : RDSt)
    (e : FEntry) (h : e.isDir = false) (hl : st.limited = false)
    (hk : strLt after (pathJoin pfx e.name) = true) :
    rdStep pfx after limit st e
      = { st with
          contents := st.contents ++ [S3Obj.mk (pathJoin pfx e.name) e.size e.mtime],
          limited := decide (limit ≤
            (((st.contents
              ++ [S3Obj.mk (pathJoin pfx e.name) e.size e.mtime]).length : Nat) : Int)) } := by
  simp [rdStep, h, hl, hk]

theorem rdFold_char (pfx after : String) (limit : Int) (es : List FEntry)
    (hlim : 1 ≤ limit)
    (hsorted : List.Pairwise
      (fun d e => SLt (entryKey pfx d) (entryKey pfx e)) es) :
    es.foldl (rdStep pfx after limit) ⟨[], [], false, false⟩
      = ⟨dirKeys pfx es,
         (objsAfter after (fileObjs pfx es)).take limit.toNat,
         decide (limit ≤ ((objsAfter after (fileObjs pfx es)).length : Int)),
         decide (limit < ((objsAfter after (fileObjs pfx es)).length : Int))⟩ := by
  induction es using List.reverseRecOn with
  | nil =>
    simp only [List.foldl_nil, dirKeys, fileObjs, objsAfter, List.filter_nil,
      List.map_nil, List.take_nil, List.length_nil, RDSt.mk.injEq]
    refine ⟨by trivial, by trivial, ?_, ?_⟩ <;>
      · rw [eq_comm, decide_eq_false_iff_not]
        push_cast
        omega
  | append_singleton l e ih =>
    have hp := List.pairwise_append.mp hsorted
    have hsl := hp.1
    have hgt : ∀ d ∈ l, SLt (entryKey pfx d) (entryKey pfx e) :=
      fun d hd => hp.2.2 d hd e (List.mem_singleton_self e)
    rw [List.foldl_concat, ih hsl]
    by_cases hdir : e.isDir = true
    · rw [rdStep_dir pfx after limit _ e hdir]
      have h1 : dirKeys pfx (l ++ [e]) = dirKeys pfx l ++ [entryKey pfx e] := by
        simp [dirKeys, List.filter_append, hdir]
      have h2 : fileObjs pfx (l ++ [e]) = fileObjs pfx l := by
        simp [fileObjs, List.filter_append, hdir]
      rw [h1, h2]
      simp [entryKey]
    · have hb : e.isDir = false := by simp at hdir; exact hdir
      have h2 : fileObjs pfx (l ++ [e])
          = fileObjs pfx l ++ [objOfEntry pfx e] := by
        simp [fileObjs, List.filter_append, hb]
      have h1 : dirKeys pfx (l ++ [e]) = dirKeys pfx l := by
        simp [dirKeys, List.filter_append, hb]
      rw [h1, h2]
      by_cases hlimd : limit ≤ ((objsAfter after (fileObjs pfx l)).length : Int)
      · -- the limit was reached: the entry only sets truncated
        have hFne : objsAfter after (fileObjs pfx l) ≠ [] := by
          intro h0
          rw [h0] at hlimd
          simp at hlimd
          omega
        have hkey : strLt after (entryKey pfx e) = true := by
          have hmem := List.getLast_mem hFne
          have hmemf : (objsAfter after (fileObjs pfx l)).getLast hFne
              ∈ List.filter (fun o => strLt after o.key) (fileObjs pfx l) := by
            simpa [objsAfter] using hmem
          have hlast : strLt after
              ((objsAfter after (fileObjs pfx l)).getLast hFne).key = true := by
            simpa using List.of_mem_filter hmemf
          have hmem2 : (objsAfter after (fileObjs pfx l)).getLast hFne
              ∈ fileObjs pfx l := List.mem_of_mem_filter hmemf
          obtain ⟨d, hd, hde⟩ := List.mem_map.mp hmem2
          have hd' : d ∈ l := List.mem_of_mem_filter hd
          have hdk := hgt d hd'
          unfold SLt at hdk
          refine strLt_trans _ _ _ hlast ?_
          have hkq : ((objsAfter after (fileObjs pfx l)).getLast hFne).key
              = entryKey pfx d := by rw [← hde]; rfl
          rw [hkq]
          exact hdk
        have hobjs : objsAfter after (fileObjs pfx l ++ [objOfEntry pfx e])
            = objsAfter after (fileObjs pfx l) ++ [objOfEntry pfx e] := by
          simp [objsAfter, List.filter_append, objOfEntry, hkey]
        rw [hobjs]
        rw [rdStep_file_limited pfx after limit _ e hb (decide_eq_true hlimd)]
        have htake : (objsAfter after (fileObjs pfx l)
              ++ [objOfEntry pfx e]).take limit.toNat
            = (objsAfter after (fileObjs pfx l)).take limit.toNat := by
          apply List.take_append_of_le_length
          omega
        rw [htake]
        simp only [RDSt.mk.injEq, List.length_append, List.length_singleton]
        refine ⟨by trivial, by trivial, ?_, ?_⟩
        · rw [decide_eq_decide]
          push_cast
          omega
        · rw [eq_comm, decide_eq_true_eq]
          push_cast
          omega
      · by_cases hkey : strLt after (entryKey pfx e) = true
        · -- below the limit and after the cursor: the object is appended
          have hobjs : objsAfter after (fileObjs pfx l ++ [objOfEntry pfx e])
              = objsAfter after (fileObjs pfx l) ++ [objOfEntry pfx e] := by
            simp [objsAfter, List.filter_append, objOfEntry, hkey]
          rw [hobjs]
          have hkey' : strLt after (pathJoin pfx e.name) = true := hkey
          rw [rdStep_file_app pfx after limit _ e hb
            (decide_eq_false hlimd) hkey']
          have htakeF : (objsAfter after (fileObjs pfx l)).take limit.toNat
              = objsAfter after (fileObjs pfx l) :=
            List.take_of_length_le (by omega)
          have htake : (objsAfter after (fileObjs pfx l)
                ++ [objOfEntry pfx e]).take limit.toNat
              = objsAfter after (fileObjs pfx l) ++ [objOfEntry pfx e] :=
            List.take_of_length_le (by simp; omega)
          rw [htakeF, htake]
          simp only [RDSt.mk.injEq, List.length_append, List.length_singleton,
            entryKey, objOfEntry]
          refine ⟨by trivial, by trivial, by trivial, ?_⟩
          rw [eq_comm, decide_eq_decide]
          push_cast
          omega
        · -- below the limit but not after the cursor: the entry is skipped
          have hkey2 : strLt after (entryKey pfx e) = false := by
            simp only [Bool.not_eq_true] at hkey
            exact hkey
          have hobjs : objsAfter after (fileObjs pfx l ++ [objOfEntry pfx e])
              = objsAfter after (fileObjs pfx l) := by
            simp [objsAfter, List.filter_append, objOfEntry, hkey2]
          rw [hobjs]
          rw [rdStep_file_skip pfx after limit _ e hb
            (decide_eq_false hlimd) hkey2]

theorem wStep_after (bucket a : String) (limit : Int) (p : String)
    (sz mt : Int) (st : WSt) (hst : ∀ o ∈ st.contents, SLt a o.key) :
    ∀ o ∈ (wStep bucket a limit p sz mt st).1.contents, SLt a o.key := by
  intro o hmem
  unfold wStep at hmem
  by_cases hl : st.limited = true
  · simp only [hl, if_pos] at hmem
    exact hst o hmem
  · have hl' : st.limited = false := by simp only [Bool.not_eq_true] at hl; exact hl
    rw [hl'] at hmem
    simp only [Bool.false_eq_true, if_false] at hmem
    by_cases hk : strLt a (trimPrefixS p (bucket ++ "/")) = false
    · rw [if_pos hk] at hmem
      exact hst o hmem
    · rw [if_neg hk] at hmem
      simp only [Bool.not_eq_false] at hk
      simp only [List.mem_append, List.mem_singleton] at hmem
      rcases hmem with hmem | hmem
      · exact hst o hmem
      · rw [hmem]
        exact hk

theorem walkList_after (bucket a : String) (limit : Int) :
    ∀ (p : String) (cs : List (String × FTree)) (st : WSt),
      (∀ o ∈ st.contents, SLt a o.key) →
      ∀ o ∈ (walkList bucket a limit p cs st).contents, SLt a o.key
  | _, [], st, hst => by
    intro o hm
    simp only [walkList] at hm
    exact hst o hm
  | p, (nm, FTree.dir gs) :: rest, st, hst => by
    intro o hm
    simp only [walkList] at hm
    exact walkList_after bucket a limit p rest _
      (walkList_after bucket a limit (p ++ "/" ++ nm) gs st hst) o hm
  | p, (nm, FTree.file sz mt) :: rest, st, hst => by
    intro o hm
    simp only [walkList] at hm
    have hstep := wStep_after bucket a limit (p ++ "/" ++ nm) sz mt st hst
    by_cases hskip : (wStep bucket a limit (p ++ "/" ++ nm) sz mt st).2 = true
    · rw [if_pos hskip] at hm
      exact hstep o hm
    · rw [if_neg hskip] at hm
      exact walkList_after bucket a limit p rest _ hstep o hm
  termination_by p cs st hst => sizeOf cs

/-- C5 (amended): for a delimiter-served (`readDir`) mock listing over
name-sorted entries, the returned object keys are strictly increasing and all
strictly greater than `startAfterKey`, the contents are exactly the first
`maxKeys` file objects after the cursor, `truncated` is set exactly when more
matching file objects remain, and the common prefixes are all the
subdirectories — returned regardless of `startAfterKey`. For the
no-delimiter (`walkDir`) mock listing, every returned key is strictly
greater than `startAfterKey` (the DFS order need not be lexicographic). -/
theorem C5_amended (pfx a : String) (es : List FEntry) (m : Int)
    (bucket wpfx wa : String) (wm : Int) (cs : List (String × FTree))
    (hsorted : List.Pairwise
      (fun d e => SLt (entryKey pfx d) (entryKey pfx e)) es) :
    (mockReadDir pfx es m a).commonPrefixes = dirKeys pfx es
    ∧ (mockReadDir pfx es m a).contents
      = (objsAfter a (fileObjs pfx es)).take (getMaxKeys m).toNat
    ∧ List.Pairwise (fun o o' : S3Obj => SLt o.key o'.key)
        (mockReadDir pfx es m a).contents
    ∧ (∀ o ∈ (mockReadDir pfx es m a).contents, SLt a o.key)
    ∧ ((mockReadDir pfx es m a).isTruncated
      = decide (getMaxKeys m < ((objsAfter a (fileObjs pfx es)).length : Int)))
    ∧ (∀ o ∈ (mockWalkDir bucket wpfx wa wm cs).contents, SLt wa o.key) := by
  have hlim : 1 ≤ getMaxKeys m := by
    unfold getMaxKeys
    split <;> omega
  have hchar := rdFold_char pfx a (getMaxKeys m) es hlim hsorted
  have hout : mockReadDir pfx es m a
      = { commonPrefixes := dirKeys pfx es,
          contents := (objsAfter a (fileObjs pfx es)).take (getMaxKeys m).toNat,
          isTruncated :=
            decide (getMaxKeys m < ((objsAfter a (fileObjs pfx es)).length : Int)) } := by
    unfold mockReadDir
    rw [hchar]
  have hpF : List.Pairwise (fun o o' : S3Obj => SLt o.key o'.key)
      (fileObjs pfx es) := by
    unfold fileObjs
    rw [List.pairwise_map]
    exact List.Pairwise.filter _ hsorted
  have hpA : List.Pairwise (fun o o' : S3Obj => SLt o.key o'.key)
      (objsAfter a (fileObjs pfx es)) := List.Pairwise.filter _ hpF
  refine ⟨by rw [hout], by rw [hout], ?_, ?_, by rw [hout], ?_⟩
  · rw [hout]
    exact List.Pairwise.sublist (List.take_sublist _ _) hpA
  · rw [hout]
    intro o hm
    have hm2 : o ∈ objsAfter a (fileObjs pfx es) := List.mem_of_mem_take hm
    unfold objsAfter at hm2
    have h3 := List.of_mem_filter hm2
    exact h3
  · unfold mockWalkDir
    exact walkList_after bucket wa (getMaxKeys wm) (pathJoin bucket wpfx) cs
      ⟨[], false, false⟩ (fun o hm => absurd hm (List.not_mem_nil o))

theorem C5_amended_wit :
    (mockReadDir "" [⟨"b", true, 0, 0⟩, ⟨"c.txt", false, 1, 2⟩] 5 "").commonPrefixes
      = dirKeys "" [⟨"b", true, 0, 0⟩, ⟨"c.txt", false, 1, 2⟩]
    ∧ (mockReadDir "" [⟨"b", true, 0, 0⟩, ⟨"c.txt", false, 1, 2⟩] 5 "").contents
      = (objsAfter "" (fileObjs "" [⟨"b", true, 0, 0⟩, ⟨"c.txt", false, 1, 2⟩])).take
          (getMaxKeys 5).toNat
    ∧ List.Pairwise (fun o o' : S3Obj => SLt o.key o'.key)
        (mockReadDir "" [⟨"b", true, 0, 0⟩, ⟨"c.txt", false, 1, 2⟩] 5 "").contents
    ∧ (∀ o ∈ (mockReadDir "" [⟨"b", true, 0, 0⟩, ⟨"c.txt", false, 1, 2⟩] 5 "").contents,
        SLt "" o.key)
    ∧ ((mockReadDir "" [⟨"b", true, 0, 0⟩, ⟨"c.txt", false, 1, 2⟩] 5 "").isTruncated
      = decide (getMaxKeys 5 <
          ((objsAfter "" (fileObjs "" [⟨"b", true, 0, 0⟩, ⟨"c.txt", false, 1, 2⟩])).length : Int)))
    ∧ (∀ o ∈ (mockWalkDir "b" "" "f" 3
        [("a", FTree.dir [("z", FTree.file 1 0)]), ("g.txt", FTree.file 2 0)]).contents,
        SLt "f" o.key) :=
  C5_amended "" "" [⟨"b", true, 0, 0⟩, ⟨"c.txt", false, 1, 2⟩] 5 "b" "" "f" 3
    [("a", FTree.dir [("z", FTree.file 1 0)]), ("g.txt", FTree.file 2 0)]
    (by decide)

theorem charListLt_irrefl : ∀ a : List Char, charListLt a a = false
  | [] => rfl
  | c :: cs => by
    simp only [charListLt, if_pos rfl]
    exact charListLt_irrefl cs

theorem charListLt_asymm : ∀ a b : List Char, charListLt a b = true →
    charListLt b a = false
  | [], [], h => by simp [charListLt] at h
  | [], _ :: _, _ => rfl
  | _ :: _, [], h => by simp [charListLt] at h
  | x :: xs, y :: ys, h => by
    simp only [charListLt] at h ⊢
    by_cases hxy : x = y
    · subst hxy
      rw [if_pos rfl] at h ⊢
      exact charListLt_asymm xs ys h
    · rw [if_neg hxy] at h
      have hxy' : x < y := of_decide_eq_true h
      rw [if_neg (Ne.symm hxy)]
      rw [decide_eq_false_iff_not]
      exact lt_asymm hxy'

theorem strLt_irrefl (a : String) : strLt a a = false := charListLt_irrefl a.data

theorem strLt_asymm (a b : String) (h : strLt a b = true) : strLt b a = false :=
  charListLt_asymm a.data b.data h

theorem pairwise_getLast_max (l : List S3Obj)
    (hp : List.Pairwise (fun o o' : S3Obj => SLt o.key o'.key) l) (hne : l ≠ [])
    (o : S3Obj) (ho : o ∈ l) :
    o = l.getLast hne ∨ strLt o.key (l.getLast hne).key = true := by
  have hsplit : l.dropLast ++ [l.getLast hne] = l := List.dropLast_append_getLast hne
  have hp2 : List.Pairwise (fun o o' : S3Obj => SLt o.key o'.key)
      (l.dropLast ++ [l.getLast hne]) := by rw [hsplit]; exact hp
  have ho2 : o ∈ l.dropLast ++ [l.getLast hne] := by rw [hsplit]; exact ho
  rcases List.mem_append.mp ho2 with hd | hs
  · exact Or.inr ((List.pairwise_append.mp hp2).2.2 o hd _
      (List.mem_singleton_self _))
  · exact Or.inl (List.mem_singleton.mp hs)

theorem sorted_filter_gt (l : List S3Obj)
    (hp : List.Pairwise (fun o o' : S3Obj => SLt o.key o'.key) l)
    (m : Nat) (hne : l.take m ≠ []) :
    l.filter (fun o => strLt ((l.take m).getLast hne).key o.key) = l.drop m := by
  have hpsplit : List.Pairwise (fun o o' : S3Obj => SLt o.key o'.key)
      (l.take m ++ l.drop m) := by rw [List.take_append_drop]; exact hp
  have hptake := (List.pairwise_append.mp hpsplit).1
  have hx : (l.take m).getLast hne ∈ l.take m := List.getLast_mem hne
  have h1 : List.filter
      (fun o => strLt ((l.take m).getLast hne).key o.key) (l.take m) = [] := by
    rw [List.filter_eq_nil_iff]
    intro o ho
    rcases pairwise_getLast_max (l.take m) hptake hne o ho with heq | hlt
    · rw [heq, strLt_irrefl]
      simp
    · rw [strLt_asymm _ _ hlt]
      simp
  have h2 : List.filter
      (fun o => strLt ((l.take m).getLast hne).key o.key) (l.drop m) = l.drop m := by
    rw [List.filter_eq_self]
    intro o ho
    exact (List.pairwise_append.mp hpsplit).2.2 _ hx o ho
  calc l.filter (fun o => strLt ((l.take m).getLast hne).key o.key)
      = (l.take m ++ l.drop m).filter
          (fun o => strLt ((l.take m).getLast hne).key o.key) := by
        rw [List.take_append_drop]
    _ = l.drop m := by rw [List.filter_append, h1, h2, List.nil_append]

theorem objsAfter_all (a : String) (l : List S3Obj)
    (h : ∀ o ∈ l, strLt a o.key = true) : objsAfter a l = l := by
  unfold objsAfter
  exact List.filter_eq_self.mpr h

theorem objsAfter_step (a : String) (l : List S3Obj)
    (hp : List.Pairwise (fun o o' : S3Obj => SLt o.key o'.key) l)
    (k' : Nat) (hne : (objsAfter a l).take k' ≠ []) :
    objsAfter (((objsAfter a l).take k').getLast hne).key l
      = (objsAfter a l).drop k' := by
  have hpr : List.Pairwise (fun o o' : S3Obj => SLt o.key o'.key)
      (objsAfter a l) := List.Pairwise.filter _ hp
  set X := ((objsAfter a l).take k').getLast hne with hX
  have hmain : objsAfter X.key (objsAfter a l) = (objsAfter a l).drop k' :=
    sorted_filter_gt (objsAfter a l) hpr k' hne
  have hlastmem : X ∈ objsAfter a l :=
    List.mem_of_mem_take (List.getLast_mem hne)
  have halast : strLt a X.key = true := by
    have := List.of_mem_filter (show X ∈ List.filter (fun o => strLt a o.key) l
      from hlastmem)
    exact this
  have h2 : objsAfter X.key l = objsAfter X.key (objsAfter a l) := by
    show List.filter (fun o => strLt X.key o.key) l
      = List.filter (fun o => strLt X.key o.key)
          (List.filter (fun o => strLt a o.key) l)
    rw [List.filter_filter]
    apply List.filter_congr
    intro o ho
    cases hlo : strLt X.key o.key with
    | false => simp [hlo]
    | true =>
      have hao : strLt a o.key = true := strLt_trans _ _ _ halast hlo
      simp [hlo, hao]
  rw [h2]
  exact hmain

theorem getMaxKeys_pos (m : Int) (hm : 1 ≤ m) : getMaxKeys m = m := by
  unfold getMaxKeys
  rw [if_neg]
  omega

theorem mockReadDir_char (pfx a : String) (m : Int) (es : List FEntry)
    (hm : 1 ≤ m)
    (hsorted : List.Pairwise
      (fun d e => SLt (entryKey pfx d) (entryKey pfx e)) es) :
    mockReadDir pfx es m a
      = ⟨dirKeys pfx es, (objsAfter a (fileObjs pfx es)).take m.toNat,
         decide (m < ((objsAfter a (fileObjs pfx es)).length : Int))⟩ := by
  have hlim : 1 ≤ getMaxKeys m := by unfold getMaxKeys; split <;> omega
  unfold mockReadDir
  rw [rdFold_char pfx a (getMaxKeys m) es hlim hsorted, getMaxKeys_pos m hm]

theorem mockFetch_eq (dpfx a : String) (k : Int) (hk : 1 ≤ k)
    (es : List FEntry)
    (hsorted : List.Pairwise
      (fun d e => SLt (entryKey dpfx d) (entryKey dpfx e)) es) :
    dirFetch (mockListDelim es) dpfx k ⟨a, false, []⟩
      = .ok ((dirKeys dpfx es).map newDirContent
          ++ ((objsAfter a (fileObjs dpfx es)).take k.toNat).map newFileContent,
          ⟨((((objsAfter a (fileObjs dpfx es)).take k.toNat).map S3Obj.key).getLast?).getD
              ((dirKeys dpfx es).getLast?.getD a),
            !(decide (k < ((objsAfter a (fileObjs dpfx es)).length : Int))), []⟩) := by
  unfold dirFetch
  have hcall : mockListDelim es ⟨dpfx, some "/", k, (⟨a, false, []⟩ : DirSt).after⟩
      = .ok (mockReadDir dpfx es k a) := rfl
  rw [hcall, mockReadDir_char dpfx a k es hk hsorted]

theorem readBatches_char (dpfx : String) (es : List FEntry) (k : Int)
    (hk : 1 ≤ k)
    (hsorted : List.Pairwise
      (fun d e => SLt (entryKey dpfx d) (entryKey dpfx e)) es)
    (hpF : List.Pairwise (fun o o' : S3Obj => SLt o.key o'.key)
      (fileObjs dpfx es)) :
    ∀ (m : Nat) (a : String), (objsAfter a (fileObjs dpfx es)).length = m →
    ∀ (fuel : Nat), m + 2 ≤ fuel →
    ∃ bs, readBatches (mockListDelim es) dpfx k fuel ⟨a, false, []⟩
        = some (.ok bs)
      ∧ bs.toFinset = ((dirKeys dpfx es).map newDirContent).toFinset
        ∪ ((objsAfter a (fileObjs dpfx es)).map newFileContent).toFinset := by
  intro m
  induction m using Nat.strong_induction_on with
  | _ m ih =>
    intro a hlen fuel hfuel
    obtain ⟨f, rfl⟩ : ∃ f, fuel = f + 1 := ⟨fuel - 1, by omega⟩
    have hstate : dirList (mockListDelim es) dpfx k ⟨a, false, []⟩
        = dirFetch (mockListDelim es) dpfx k ⟨a, false, []⟩ :=
      dirList_fetch _ _ _ _ (by simp) (by simp)
    have hfetch := mockFetch_eq dpfx a k hk es hsorted
    by_cases hcase : k < ((objsAfter a (fileObjs dpfx es)).length : Int)
    · -- a truncated page: recurse on the remaining suffix
      have hdec : decide (k < ((objsAfter a (fileObjs dpfx es)).length : Int))
          = true := decide_eq_true hcase
      rw [hdec, Bool.not_true] at hfetch
      have hne_take : (objsAfter a (fileObjs dpfx es)).take k.toNat ≠ [] := by
        apply List.ne_nil_of_length_pos
        rw [List.length_take]
        omega
      have hE : ((((objsAfter a (fileObjs dpfx es)).take k.toNat).map S3Obj.key).getLast?).getD
            ((dirKeys dpfx es).getLast?.getD a)
          = (((objsAfter a (fileObjs dpfx es)).take k.toNat).getLast hne_take).key := by
        rw [List.getLast?_map, List.getLast?_eq_getLast _ hne_take]
        rfl
      rw [hE] at hfetch
      have hstep := objsAfter_step a (fileObjs dpfx es) hpF k.toNat hne_take
      have hlen' : (objsAfter
          (((objsAfter a (fileObjs dpfx es)).take k.toNat).getLast hne_take).key
          (fileObjs dpfx es)).length = m - k.toNat := by
        rw [hstep, List.length_drop, hlen]
      obtain ⟨bs', hbs', hset'⟩ := ih (m - k.toNat) (by omega) _ hlen' f (by omega)
      refine ⟨((dirKeys dpfx es).map newDirContent
        ++ ((objsAfter a (fileObjs dpfx es)).take k.toNat).map newFileContent)
        ++ bs', ?_, ?_⟩
      · simp only [readBatches]
        simp [hstate, hfetch, hbs', Except.map]
      · rw [List.toFinset_append, List.toFinset_append, hset', hstep]
        have hsplit : ((objsAfter a (fileObjs dpfx es)).map newFileContent).toFinset
            = (((objsAfter a (fileObjs dpfx es)).take k.toNat).map
                newFileContent).toFinset
              ∪ (((objsAfter a (fileObjs dpfx es)).drop k.toNat).map
                newFileContent).toFinset := by
          conv_lhs =>
            rw [← List.take_append_drop k.toNat (objsAfter a (fileObjs dpfx es))]
          rw [List.map_append, List.toFinset_append]
        rw [hsplit]
        ext x
        simp only [Finset.mem_union]
        tauto
    · -- the final page: everything left fits, then io.EOF
      have hdec : decide (k < ((objsAfter a (fileObjs dpfx es)).length : Int))
          = false := decide_eq_false hcase
      have htake : (objsAfter a (fileObjs dpfx es)).take k.toNat
          = objsAfter a (fileObjs dpfx es) :=
        List.take_of_length_le (by omega)
      rw [hdec, htake, Bool.not_false] at hfetch
      obtain ⟨f', rfl⟩ : ∃ f', f = f' + 1 := ⟨f - 1, by omega⟩
      have heof : ∀ s, dirList (mockListDelim es) dpfx k ⟨s, true, []⟩
          = .error .ioEOF := fun s => dirList_eof _ _ _ _ (by simp) rfl
      refine ⟨(dirKeys dpfx es).map newDirContent
        ++ (objsAfter a (fileObjs dpfx es)).map newFileContent, ?_, ?_⟩
      · simp only [readBatches]
        simp [hstate, hfetch, heof, Except.map]
      · rw [List.toFinset_append]

theorem listAllAux_char (dpfx : String) (es : List FEntry) (bufSize : Int)
    (hL : 1 ≤ bufSize)
    (hsorted : List.Pairwise
      (fun d e => SLt (entryKey dpfx d) (entryKey dpfx e)) es)
    (hpF : List.Pairwise (fun o o' : S3Obj => SLt o.key o'.key)
      (fileObjs dpfx es)) :
    ∀ (m : Nat) (a : String), (objsAfter a (fileObjs dpfx es)).length = m →
    ∀ (fuel : Nat), m + 2 ≤ fuel →
    ∃ bs, listAllAux (mockListDelim es) dpfx bufSize fuel ⟨a, false, []⟩
        = some (.ok bs)
      ∧ bs.toFinset = ((dirKeys dpfx es).map newDirContent).toFinset
        ∪ ((objsAfter a (fileObjs dpfx es)).map newFileContent).toFinset := by
  intro m
  induction m using Nat.strong_induction_on with
  | _ m ih =>
    intro a hlen fuel hfuel
    obtain ⟨f, rfl⟩ : ∃ f, fuel = f + 1 := ⟨fuel - 1, by omega⟩
    have hstate : dirList (mockListDelim es) dpfx bufSize ⟨a, false, []⟩
        = dirFetch (mockListDelim es) dpfx bufSize ⟨a, false, []⟩ :=
      dirList_fetch _ _ _ _ (by simp) (by simp)
    have hfetch := mockFetch_eq dpfx a bufSize hL es hsorted
    by_cases hcase : bufSize < ((objsAfter a (fileObjs dpfx es)).length : Int)
    · have hdec : decide (bufSize
          < ((objsAfter a (fileObjs dpfx es)).length : Int)) = true :=
        decide_eq_true hcase
      rw [hdec, Bool.not_true] at hfetch
      have hne_take : (objsAfter a (fileObjs dpfx es)).take bufSize.toNat ≠ [] := by
        apply List.ne_nil_of_length_pos
        rw [List.length_take]
        omega
      have hE : ((((objsAfter a (fileObjs dpfx es)).take bufSize.toNat).map S3Obj.key).getLast?).getD
            ((dirKeys dpfx es).getLast?.getD a)
          = (((objsAfter a (fileObjs dpfx es)).take bufSize.toNat).getLast hne_take).key := by
        rw [List.getLast?_map, List.getLast?_eq_getLast _ hne_take]
        rfl
      rw [hE] at hfetch
      have hstep := objsAfter_step a (fileObjs dpfx es) hpF bufSize.toNat hne_take
      have hlen' : (objsAfter
          (((objsAfter a (fileObjs dpfx es)).take bufSize.toNat).getLast hne_take).key
          (fileObjs dpfx es)).length = m - bufSize.toNat := by
        rw [hstep, List.length_drop, hlen]
      obtain ⟨bs', hbs', hset'⟩ := ih (m - bufSize.toNat) (by omega) _ hlen' f (by omega)
      refine ⟨((dirKeys dpfx es).map newDirContent
        ++ ((objsAfter a (fileObjs dpfx es)).take bufSize.toNat).map newFileContent)
        ++ bs', ?_, ?_⟩
      · simp only [listAllAux]
        rw [if_pos (by simp)]
        simp [hstate, hfetch, hbs', Except.map]
      · rw [List.toFinset_append, List.toFinset_append, hset', hstep]
        have hsplit : ((objsAfter a (fileObjs dpfx es)).map newFileContent).toFinset
            = (((objsAfter a (fileObjs dpfx es)).take bufSize.toNat).map
                newFileContent).toFinset
              ∪ (((objsAfter a (fileObjs dpfx es)).drop bufSize.toNat).map
                newFileContent).toFinset := by
          conv_lhs =>
            rw [← List.take_append_drop bufSize.toNat (objsAfter a (fileObjs dpfx es))]
          rw [List.map_append, List.toFinset_append]
        rw [hsplit]
        ext x
        simp only [Finset.mem_union]
        tauto
    · have hdec : decide (bufSize
          < ((objsAfter a (fileObjs dpfx es)).length : Int)) = false :=
        decide_eq_false hcase
      have htake : (objsAfter a (fileObjs dpfx es)).take bufSize.toNat
          = objsAfter a (fileObjs dpfx es) :=
        List.take_of_length_le (by omega)
      rw [hdec, htake, Bool.not_false] at hfetch
      obtain ⟨f', rfl⟩ : ∃ f', f = f' + 1 := ⟨f - 1, by omega⟩
      refine ⟨(dirKeys dpfx es).map newDirContent
        ++ (objsAfter a (fileObjs dpfx es)).map newFileContent, ?_, ?_⟩
      · simp only [listAllAux]
        rw [if_pos (by simp)]
        simp [listAllAux, hstate, hfetch, Except.map]
      · rw [List.toFinset_append]

/-- C2: pagination correctness against the mock store. For a directory whose
(name-sorted) entry list has N children and any page size `0 < k < N`,
repeated `ReadDir(k)` batch calls on one fresh reader until `io.EOF` return,
as a set, exactly the entries of one `ReadDir(-1)` (`listAll`) call on a
fresh reader of the same directory (batches may repeat directory entries —
the mock reissues every common prefix on each page — so equality holds as
entry sets, as claimed). -/
theorem C2_pagination (dpfx : String) (es : List FEntry) (k L : Int)
    (hk : 1 ≤ k) (hkN : k < (es.length : Int)) (hL : 1 ≤ L)
    (hsorted : List.Pairwise
      (fun d e => SLt (entryKey dpfx d) (entryKey dpfx e)) es)
    (hne : ∀ e ∈ es, strLt "" (entryKey dpfx e) = true) :
    ∃ bs as,
      readBatches (mockListDelim es) dpfx k (es.length + 2) dirSt0
        = some (.ok bs)
      ∧ listAllRun (mockListDelim es) dpfx L (es.length + 2) = some (.ok as)
      ∧ bs.toFinset = as.toFinset := by
  have hpF : List.Pairwise (fun o o' : S3Obj => SLt o.key o'.key)
      (fileObjs dpfx es) := by
    unfold fileObjs
    rw [List.pairwise_map]
    exact List.Pairwise.filter _ hsorted
  have hall : objsAfter "" (fileObjs dpfx es) = fileObjs dpfx es := by
    apply objsAfter_all
    intro o ho
    unfold fileObjs at ho
    obtain ⟨e, he, rfl⟩ := List.mem_map.mp ho
    exact hne e (List.mem_of_mem_filter he)
  have hm : (objsAfter "" (fileObjs dpfx es)).length
      = (fileObjs dpfx es).length := by rw [hall]
  have hlen_le : (fileObjs dpfx es).length ≤ es.length := by
    unfold fileObjs
    rw [List.length_map]
    exact List.length_filter_le _ _
  obtain ⟨bs, hbs, hbset⟩ := readBatches_char dpfx es k hk hsorted hpF
    (fileObjs dpfx es).length "" hm (es.length + 2) (by omega)
  obtain ⟨as0, has, hasset⟩ := listAllAux_char dpfx es L hL hsorted hpF
    (fileObjs dpfx es).length "" hm (es.length + 2) (by omega)
  refine ⟨bs, sortByName as0, hbs, ?_, ?_⟩
  · unfold listAllRun dirSt0
    rw [has]
    rfl
  · have hperm : (sortByName as0).toFinset = as0.toFinset :=
      List.toFinset_eq_of_perm _ _ (List.mergeSort_perm as0 _)
    rw [hperm, hbset, hasset]

theorem C2_pagination_wit :
    ∃ bs as,
      readBatches
        (mockListDelim [⟨"d", true, 0, 0⟩, ⟨"f1.txt", false, 1, 0⟩,
          ⟨"f2.txt", false, 2, 0⟩]) "p/" 1
        ([⟨"d", true, 0, 0⟩, ⟨"f1.txt", false, 1, 0⟩,
          ⟨"f2.txt", false, 2, 0⟩] : List FEntry).length.succ.succ dirSt0
        = some (.ok bs)
      ∧ listAllRun
        (mockListDelim [⟨"d", true, 0, 0⟩, ⟨"f1.txt", false, 1, 0⟩,
          ⟨"f2.txt", false, 2, 0⟩]) "p/" 2
        ([⟨"d", true, 0, 0⟩, ⟨"f1.txt", false, 1, 0⟩,
          ⟨"f2.txt", false, 2, 0⟩] : List FEntry).length.succ.succ
        = some (.ok as)
      ∧ bs.toFinset = as.toFinset :=
  C2_pagination "p/" [⟨"d", true, 0, 0⟩, ⟨"f1.txt", false, 1, 0⟩,
    ⟨"f2.txt", false, 2, 0⟩] 1 2 (by decide) (by decide) (by decide)
    (by decide) (by decide)

theorem splitSlash_no_slash : ∀ s : List Char, '/' ∉ s → splitSlash s = [s]
  | [], _ => rfl
  | c :: cs, h => by
    rw [splitSlash_cons]
    have hc : ¬ c = '/' := fun hc => h (by rw [hc]; exact List.mem_cons_self _ _)
    rw [if_neg hc]
    rw [splitSlash_no_slash cs (fun hm => h (List.mem_cons_of_mem c hm))]

theorem splitSlash_joinSegs : ∀ L : List (List Char), L ≠ [] →
    (∀ s ∈ L, '/' ∉ s) → splitSlash (joinSegs L) = L
  | [], h, _ => absurd rfl h
  | [s], _, hs => by
    rw [show joinSegs [s] = s from rfl]
    exact splitSlash_no_slash s (hs s (List.mem_singleton_self s))
  | s :: t :: ts, _, hs => by
    rw [show joinSegs (s :: t :: ts) = s ++ '/' :: joinSegs (t :: ts) from rfl]
    rw [splitSlash_append_slash]
    rw [splitSlash_no_slash s (hs s (List.mem_cons_self _ _))]
    rw [splitSlash_joinSegs (t :: ts) (by simp)
      (fun x hx => hs x (List.mem_cons_of_mem s hx))]
    rfl

theorem splitSlash_mem_no_slash : ∀ (cs : List Char) (p : List Char),
    p ∈ splitSlash cs → '/' ∉ p
  | [], p, hp => by
    rw [show splitSlash [] = [[]] from rfl] at hp
    rw [List.mem_singleton.mp hp]
    simp
  | c :: cs, p, hp => by
    rw [splitSlash_cons] at hp
    by_cases hc : c = '/'
    · rw [if_pos hc] at hp
      rcases List.mem_cons.mp hp with h | h
      · rw [h]; simp
      · exact splitSlash_mem_no_slash cs p h
    · rw [if_neg hc] at hp
      cases hsp : splitSlash cs with
      | nil => exact absurd hsp (splitSlash_ne_nil cs)
      | cons s ss =>
        rw [hsp] at hp
        rcases List.mem_cons.mp hp with h | h
        · have hs : '/' ∉ s :=
            splitSlash_mem_no_slash cs s (by rw [hsp]; exact List.mem_cons_self _ _)
          rw [h]
          intro hmem
          rcases List.mem_cons.mp hmem with h2 | h2
          · exact hc h2.symm
          · exact hs h2
        · exact splitSlash_mem_no_slash cs p
            (by rw [hsp]; exact List.mem_cons_of_mem s h)

theorem cleanPush_empty (r : Bool) (acc : List (List Char)) :
    cleanPush r acc [] = acc := by
  simp [cleanPush]

theorem cleanPush_preserves (r : Bool) (acc : List (List Char))
    (seg : List Char) (hacc : OKStack r acc) (hseg : '/' ∉ seg) :
    OKStack r (cleanPush r acc seg) := by
  obtain ⟨ns, d, heq, hns, hroot⟩ := hacc
  unfold cleanPush
  by_cases h1 : seg = [] ∨ seg = ['.']
  · rw [if_pos h1]
    exact ⟨ns, d, heq, hns, hroot⟩
  · rw [if_neg h1]
    by_cases h2 : seg = ['.', '.']
    · rw [if_pos h2]
      cases hc : acc with
      | nil =>
        cases hr : r with
        | true => exact ⟨[], 0, by simp, by simp, fun _ => rfl⟩
        | false =>
          refine ⟨[], 1, ?_, by simp, by simp⟩
          simp [h2]
      | cons a rest =>
        show OKStack r (if a = ['.', '.'] then seg :: (a :: rest) else rest)
        by_cases ha : a = ['.', '.']
        · rw [if_pos ha]
          have hns0 : ns = [] := by
            cases hn : ns with
            | nil => rfl
            | cons n ns' =>
              rw [hn] at heq
              rw [hc] at heq
              have han : a = n := by
                have := congrArg (fun l => l.head?) heq
                simpa using this
              exact absurd (han.symm.trans ha)
                ((hns n (by rw [hn]; exact List.mem_cons_self _ _)).2)
          rw [hns0, List.nil_append] at heq
          have hd : 0 < d := by
            by_contra h0
            have : d = 0 := by omega
            rw [this] at heq
            rw [hc] at heq
            simp at heq
          have hrf : r = false := by
            cases hr : r with
            | false => rfl
            | true => exact absurd (hroot hr) (by omega)
          refine ⟨[], d + 1, ?_, by simp, by simp [hrf]⟩
          rw [List.nil_append, List.replicate_succ, h2, ← heq, hc]
        · rw [if_neg ha]
          cases hn : ns with
          | nil =>
            rw [hn, List.nil_append] at heq
            have : a ∈ List.replicate d ['.', '.'] := by
              rw [← heq, hc]
              exact List.mem_cons_self _ _
            exact absurd (List.eq_of_mem_replicate this) ha
          | cons n ns' =>
            rw [hn] at heq
            rw [hc] at heq
            have han : a = n ∧ rest = ns' ++ List.replicate d ['.', '.'] := by
              have h3 := heq
              rw [List.cons_append] at h3
              exact ⟨(List.cons.injEq _ _ _ _ ▸ h3).1, (List.cons.injEq _ _ _ _ ▸ h3).2⟩
            refine ⟨ns', d, han.2, ?_, hroot⟩
            intro x hx
            exact hns x (by rw [hn]; exact List.mem_cons_of_mem n hx)
    · rw [if_neg h2]
      refine ⟨seg :: ns, d, by rw [heq]; simp, ?_, hroot⟩
      intro x hx
      rcases List.mem_cons.mp hx with h | h
      · constructor
        · constructor
          · intro h0
            exact h1 (Or.inl (h.symm.trans h0))
          constructor
          · intro h0
            exact h1 (Or.inr (h.symm.trans h0))
          · rw [h]
            exact hseg
        · rw [h]
          exact h2
      · exact hns x h

theorem cleanSegs_fold_OK (r : Bool) : ∀ (segs : List (List Char))
    (acc : List (List Char)), OKStack r acc → (∀ s ∈ segs, '/' ∉ s) →
    OKStack r (segs.foldl (cleanPush r) acc)
  | [], acc, hacc, _ => hacc
  | s :: segs, acc, hacc, hsegs => by
    rw [List.foldl_cons]
    exact cleanSegs_fold_OK r segs (cleanPush r acc s)
      (cleanPush_preserves r acc s hacc (hsegs s (List.mem_cons_self _ _)))
      (fun x hx => hsegs x (List.mem_cons_of_mem s hx))

theorem cleanSegs_OK (r : Bool) (segs : List (List Char))
    (hsegs : ∀ s ∈ segs, '/' ∉ s) : OKStack r (cleanSegs r segs) :=
  cleanSegs_fold_OK r segs [] ⟨[], 0, by simp, by simp, fun _ => rfl⟩ hsegs

theorem fold_dotdot (r : Bool) (hr : r = false) :
    ∀ (d j : Nat), (List.replicate d ['.', '.']).foldl (cleanPush r)
      (List.replicate j ['.', '.']) = List.replicate (d + j) ['.', '.']
  | 0, j => by simp
  | d + 1, j => by
    rw [List.replicate_succ, List.foldl_cons]
    have hstep : cleanPush r (List.replicate j ['.', '.']) ['.', '.']
        = List.replicate (j + 1) ['.', '.'] := by
      cases j with
      | zero => simp [cleanPush, hr]
      | succ j' => simp [cleanPush, List.replicate_succ]
    rw [hstep]
    rw [fold_dotdot r hr d (j + 1)]
    congr 1
    omega

theorem fold_push_only (r : Bool) : ∀ (l acc : List (List Char)),
    (∀ s ∈ l, SegOK s ∧ s ≠ ['.', '.']) →
    l.foldl (cleanPush r) acc = l.reverse ++ acc
  | [], acc, _ => by simp
  | s :: l, acc, hl => by
    rw [List.foldl_cons]
    have hs := hl s (List.mem_cons_self _ _)
    have hstep : cleanPush r acc s = s :: acc := by
      unfold cleanPush
      rw [if_neg, if_neg hs.2]
      intro h
      rcases h with h | h
      · exact hs.1.1 h
      · exact hs.1.2.1 h
    rw [hstep]
    rw [fold_push_only r l (s :: acc) (fun x hx => hl x (List.mem_cons_of_mem s hx))]
    simp

theorem refold (r : Bool) (acc : List (List Char)) (hacc : OKStack r acc) :
    cleanSegs r acc.reverse = acc := by
  obtain ⟨ns, d, heq, hns, hroot⟩ := hacc
  rw [heq]
  unfold cleanSegs
  rw [List.reverse_append, List.reverse_replicate, List.foldl_append]
  have hdot : (List.replicate d ['.', '.']).foldl (cleanPush r) [] 
      = List.replicate d ['.', '.'] := by
    cases hd : d with
    | zero => simp
    | succ d' =>
      have hrf : r = false := by
        cases hr : r with
        | false => rfl
        | true => exact absurd (hroot hr) (by omega)
      have := fold_dotdot r hrf d 0
      rw [show List.replicate 0 (['.', '.'] : List Char) = [] from rfl] at this
      rw [← hd]
      rw [this]
      congr 1
  rw [hdot]
  have hrev : ∀ x ∈ ns.reverse, SegOK x ∧ x ≠ ['.', '.'] :=
    fun x hx => hns x (List.mem_reverse.mp hx)
  rw [fold_push_only r ns.reverse _ hrev, List.reverse_reverse]

theorem getLast_append_right (l1 l2 : List Char) (h : l2 ≠ []) :
    (l1 ++ l2).getLast? = l2.getLast? := by
  rw [List.getLast?_append]
  cases hl : l2.getLast? with
  | none => exact absurd (List.getLast?_eq_none_iff.mp hl) h
  | some c => rfl

theorem joinSegs_cons (s : List Char) (ss : List (List Char)) :
    ∃ t, joinSegs (s :: ss) = s ++ t := by
  cases ss with
  | nil => exact ⟨[], by simp [joinSegs]⟩
  | cons t ts => exact ⟨'/' :: joinSegs (t :: ts), rfl⟩

theorem joinSegs_ne_nil (L : List (List Char)) (hL : L ≠ [])
    (helem : ∀ s ∈ L, s ≠ []) : joinSegs L ≠ [] := by
  cases L with
  | nil => exact absurd rfl hL
  | cons s ss =>
    obtain ⟨t, ht⟩ := joinSegs_cons s ss
    rw [ht]
    intro h
    exact helem s (List.mem_cons_self _ _) (List.append_eq_nil.mp h).1

theorem joinSegs_getLast_ne_slash : ∀ L : List (List Char), L ≠ [] →
    (∀ s ∈ L, s ≠ [] ∧ '/' ∉ s) → (joinSegs L).getLast? ≠ some '/'
  | [], h, _ => absurd rfl h
  | [s], _, helem => by
    have hs := helem s (List.mem_singleton_self s)
    rw [show joinSegs [s] = s from rfl]
    rw [List.getLast?_eq_getLast s hs.1]
    intro h
    have h' : s.getLast hs.1 = '/' := by injection h
    exact hs.2 (h' ▸ List.getLast_mem hs.1)
  | s :: t :: ts, _, helem => by
    rw [show joinSegs (s :: t :: ts) = s ++ '/' :: joinSegs (t :: ts) from rfl]
    have hJ : joinSegs (t :: ts) ≠ [] :=
      joinSegs_ne_nil (t :: ts) (by simp)
        (fun x hx => (helem x (List.mem_cons_of_mem s hx)).1)
    rw [getLast_append_right s _ (by simp)]
    rw [show ('/' :: joinSegs (t :: ts)) = ['/'] ++ joinSegs (t :: ts) from rfl]
    rw [getLast_append_right _ _ hJ]
    exact joinSegs_getLast_ne_slash (t :: ts) (by simp)
      (fun x hx => helem x (List.mem_cons_of_mem s hx))

theorem OKStack_elem (r : Bool) (acc : List (List Char)) (hacc : OKStack r acc) :
    ∀ s ∈ acc, s ≠ [] ∧ '/' ∉ s := by
  obtain ⟨ns, d, heq, hns, _⟩ := hacc
  intro s hs
  rw [heq] at hs
  rcases List.mem_append.mp hs with h | h
  · exact ⟨(hns s h).1.1, (hns s h).1.2.2⟩
  · rw [List.eq_of_mem_replicate h]
    exact ⟨by simp, by decide⟩

theorem pathCleanC_cons (c : Char) (cs' : List Char) :
    pathCleanC (c :: cs')
      = if c = '/' then
          '/' :: joinSegs (cleanSegs true (splitSlash (c :: cs'))).reverse
        else
          (if joinSegs (cleanSegs false (splitSlash (c :: cs'))).reverse = []
           then ['.']
           else joinSegs (cleanSegs false (splitSlash (c :: cs'))).reverse) := by
  by_cases hc : c = '/'
  · subst hc
    simp [pathCleanC]
  · simp [pathCleanC, hc]

theorem pathCleanC_body_slash (stack : List (List Char))
    (hOK : OKStack false stack) (hne : stack ≠ []) :
    pathCleanC (joinSegs stack.reverse ++ ['/']) = joinSegs stack.reverse := by
  have helem : ∀ s ∈ stack.reverse, s ≠ [] ∧ '/' ∉ s :=
    fun s hs => OKStack_elem false stack hOK s (List.mem_reverse.mp hs)
  have hrevne : stack.reverse ≠ [] := by simpa using hne
  obtain ⟨s0, ss, hrev⟩ := List.exists_cons_of_ne_nil hrevne
  have hs0 : s0 ≠ [] ∧ '/' ∉ s0 :=
    helem s0 (by rw [hrev]; exact List.mem_cons_self _ _)
  obtain ⟨c0, s0', hc0s⟩ := List.exists_cons_of_ne_nil hs0.1
  have hc0 : ¬ c0 = '/' :=
    fun h => hs0.2 (by rw [hc0s, h]; exact List.mem_cons_self _ _)
  obtain ⟨t, ht⟩ := joinSegs_cons s0 ss
  have hbody : joinSegs stack.reverse = c0 :: (s0' ++ t) := by
    rw [hrev, ht, hc0s, List.cons_append]
  rw [hbody]
  rw [show (c0 :: (s0' ++ t)) ++ ['/'] = c0 :: (s0' ++ t ++ ['/']) from by simp]
  rw [pathCleanC_cons]
  rw [if_neg hc0]
  have hsplit : splitSlash (c0 :: (s0' ++ t ++ ['/'])) = stack.reverse ++ [[]] := by
    have h1 : (c0 :: (s0' ++ t ++ ['/'])) = joinSegs stack.reverse ++ '/' :: [] := by
      rw [hbody]; simp
    rw [h1, splitSlash_append_slash]
    rw [splitSlash_joinSegs stack.reverse hrevne (fun x hx => (helem x hx).2)]
    rfl
  rw [hsplit]
  have hclean : cleanSegs false (stack.reverse ++ [[]]) = stack := by
    show (stack.reverse ++ [[]]).foldl (cleanPush false) [] = stack
    rw [List.foldl_append]
    have hin : stack.reverse.foldl (cleanPush false) [] = stack :=
      refold false stack hOK
    rw [hin]
    simp only [List.foldl_cons, List.foldl_nil, cleanPush_empty]
  rw [hclean]
  rw [hbody]
  simp

theorem pathCleanC_rooted_slash (stack : List (List Char))
    (hOK : OKStack true stack) (hne : stack ≠ []) :
    pathCleanC (('/' :: joinSegs stack.reverse) ++ ['/'])
      = '/' :: joinSegs stack.reverse := by
  have helem : ∀ s ∈ stack.reverse, s ≠ [] ∧ '/' ∉ s :=
    fun s hs => OKStack_elem true stack hOK s (List.mem_reverse.mp hs)
  have hrevne : stack.reverse ≠ [] := by simpa using hne
  rw [show ('/' :: joinSegs stack.reverse) ++ ['/']
      = '/' :: (joinSegs stack.reverse ++ ['/']) from by simp]
  rw [pathCleanC_cons]
  rw [if_pos rfl]
  have hsplit : splitSlash ('/' :: (joinSegs stack.reverse ++ ['/']))
      = [] :: (stack.reverse ++ [[]]) := by
    rw [splitSlash_cons, if_pos rfl]
    congr 1
    have h1 : joinSegs stack.reverse ++ ['/']
        = joinSegs stack.reverse ++ '/' :: [] := by simp
    rw [h1, splitSlash_append_slash]
    rw [splitSlash_joinSegs stack.reverse hrevne (fun x hx => (helem x hx).2)]
    rfl
  rw [hsplit]
  have hclean : cleanSegs true ([] :: (stack.reverse ++ [[]])) = stack := by
    show ([] :: (stack.reverse ++ [[]])).foldl (cleanPush true) [] = stack
    rw [List.foldl_cons, cleanPush_empty]
    rw [List.foldl_append]
    have hin : stack.reverse.foldl (cleanPush true) [] = stack :=
      refold true stack hOK
    rw [hin]
    simp only [List.foldl_cons, List.foldl_nil, cleanPush_empty]
  rw [hclean]

theorem pathCleanC_append_slash (cs : List Char)
    (h1 : pathCleanC cs ≠ ['.']) (h2 : pathCleanC cs ≠ ['/']) :
    pathCleanC (pathCleanC cs ++ ['/']) = pathCleanC cs := by
  cases cs with
  | nil => exact absurd rfl h1
  | cons c cs' =>
    rw [pathCleanC_cons] at h1 h2 ⊢
    by_cases hc : c = '/'
    · rw [if_pos hc] at h1 h2 ⊢
      set stack := cleanSegs true (splitSlash (c :: cs')) with hstack
      have hOK : OKStack true stack :=
        cleanSegs_OK true _ (splitSlash_mem_no_slash (c :: cs'))
      have hne : stack ≠ [] := by
        intro h0
        apply h2
        rw [h0]
        rfl
      exact pathCleanC_rooted_slash stack hOK hne
    · rw [if_neg hc] at h1 h2 ⊢
      set stack := cleanSegs false (splitSlash (c :: cs')) with hstack
      have hOK : OKStack false stack :=
        cleanSegs_OK false _ (splitSlash_mem_no_slash (c :: cs'))
      by_cases hb : joinSegs stack.reverse = []
      · rw [if_pos hb] at h1
        exact absurd rfl h1
      · rw [if_neg hb] at h1 h2 ⊢
        have hne : stack ≠ [] := by
          intro h0
          apply hb
          rw [h0]
          rfl
        exact pathCleanC_body_slash stack hOK hne

theorem pathCleanC_ne_nil (cs : List Char) : pathCleanC cs ≠ [] := by
  cases cs with
  | nil => simp [pathCleanC]
  | cons c cs' =>
    rw [pathCleanC_cons]
    by_cases hc : c = '/'
    · rw [if_pos hc]; simp
    · rw [if_neg hc]
      by_cases hb : joinSegs (cleanSegs false (splitSlash (c :: cs'))).reverse = []
      · rw [if_pos hb]; simp
      · rw [if_neg hb]; exact hb

theorem pathCleanC_getLast_ne_slash (cs : List Char)
    (h2 : pathCleanC cs ≠ ['/']) : (pathCleanC cs).getLast? ≠ some '/' := by
  cases cs with
  | nil =>
    rw [show pathCleanC [] = ['.'] from rfl]
    intro h
    injection h with h'
    exact absurd h' (by decide)
  | cons c cs' =>
    rw [pathCleanC_cons] at h2 ⊢
    by_cases hc : c = '/'
    · rw [if_pos hc] at h2 ⊢
      set stack := cleanSegs true (splitSlash (c :: cs')) with hstack
      have hOK : OKStack true stack :=
        cleanSegs_OK true _ (splitSlash_mem_no_slash (c :: cs'))
      by_cases hst : stack = []
      · rw [hst] at h2
        exact absurd rfl h2
      · have helem : ∀ x ∈ stack.reverse, x ≠ [] ∧ '/' ∉ x :=
          fun x hx => OKStack_elem true stack hOK x (List.mem_reverse.mp hx)
        have hrevne : stack.reverse ≠ [] := by simpa using hst
        have hbody : joinSegs stack.reverse ≠ [] :=
          joinSegs_ne_nil _ hrevne (fun x hx => (helem x hx).1)
        rw [show ('/' :: joinSegs stack.reverse)
            = ['/'] ++ joinSegs stack.reverse from rfl]
        rw [getLast_append_right _ _ hbody]
        exact joinSegs_getLast_ne_slash stack.reverse hrevne helem
    · rw [if_neg hc] at h2 ⊢
      set stack := cleanSegs false (splitSlash (c :: cs')) with hstack
      have hOK : OKStack false stack :=
        cleanSegs_OK false _ (splitSlash_mem_no_slash (c :: cs'))
      by_cases hb : joinSegs stack.reverse = []
      · rw [if_pos hb]
        intro h
        injection h with h'
        exact absurd h' (by decide)
      · rw [if_neg hb]
        have hst : stack ≠ [] := by
          intro h0
          apply hb
          rw [h0]
          rfl
        have helem : ∀ x ∈ stack.reverse, x ≠ [] ∧ '/' ∉ x :=
          fun x hx => OKStack_elem false stack hOK x (List.mem_reverse.mp hx)
        exact joinSegs_getLast_ne_slash stack.reverse (by simpa using hst) helem

theorem pathClean_append_slash (s : String)
    (h1 : pathClean s ≠ ".") (h2 : pathClean s ≠ "/") :
    pathClean (pathClean s ++ "/") = pathClean s := by
  have h1' : pathCleanC s.data ≠ ['.'] := by
    intro h
    exact h1 (congrArg String.mk h)
  have h2' : pathCleanC s.data ≠ ['/'] := by
    intro h
    exact h2 (congrArg String.mk h)
  show (⟨pathCleanC (pathClean s ++ "/").data⟩ : String) = ⟨pathCleanC s.data⟩
  have hd : (pathClean s ++ "/").data = pathCleanC s.data ++ ['/'] := by
    rw [String.data_append]
    rfl
  rw [hd, pathCleanC_append_slash s.data h1' h2']

theorem pathClean_ne_empty (s : String) : pathClean s ≠ "" := by
  intro h
  exact pathCleanC_ne_nil s.data (congrArg String.data h)

theorem pathClean_not_endsWithSlash (s : String) (h2 : pathClean s ≠ "/") :
    endsWithSlash (pathClean s) = false := by
  have h2' : pathCleanC s.data ≠ ['/'] := by
    intro h
    exact h2 (congrArg String.mk h)
  have hlast := pathCleanC_getLast_ne_slash s.data h2'
  show decide ((pathClean s).data.getLast? = some '/') = false
  exact decide_eq_false hlast

theorem normalizePrefix_eq (s : String) :
    normalizePrefix s
      = if pathClean s = "." ∨ pathClean s = "/" then ""
        else pathClean s ++ "/" := by
  simp only [normalizePrefix]
  by_cases hp : pathClean s = "." ∨ pathClean s = "/"
  · rw [if_pos hp, if_pos hp]
    simp
  · rw [if_neg hp, if_neg hp]
    have hsl := pathClean_not_endsWithSlash s (fun h => hp (Or.inr h))
    rw [if_pos ⟨pathClean_ne_empty s, by simp [hsl]⟩]

theorem normalizePrefix_idem (s : String) :
    normalizePrefix (normalizePrefix s) = normalizePrefix s := by
  rw [normalizePrefix_eq s]
  by_cases hp : pathClean s = "." ∨ pathClean s = "/"
  · rw [if_pos hp]
    decide
  · rw [if_neg hp]
    have h1 : pathClean s ≠ "." := fun h => hp (Or.inl h)
    have h2 : pathClean s ≠ "/" := fun h => hp (Or.inr h)
    rw [normalizePrefix_eq (pathClean s ++ "/")]
    rw [pathClean_append_slash s h1 h2]
    rw [if_neg (by intro h; rcases h with h | h; exacts [h1 h, h2 h])]

/-- C9: amended. `normalizePrefix` maps `.` and the empty string (and every
path whose `path.Clean` is `.` or `/`) to the empty prefix; otherwise it
returns the cleaned path with `/` appended (cleaned non-root paths never end
in `/`); and it is idempotent on every string. -/
theorem C9_amended (s : String) :
    normalizePrefix "." = "" ∧ normalizePrefix "" = ""
    ∧ normalizePrefix s
      = (if pathClean s = "." ∨ pathClean s = "/" then ""
         else pathClean s ++ "/")
    ∧ normalizePrefix (normalizePrefix s) = normalizePrefix s :=
  ⟨by decide, by decide, normalizePrefix_eq s, normalizePrefix_idem s⟩
